import Mathlib

/-!
# Verification of the GoldenDict B-tree index core (`btreeidx.cc`)

Shallow embedding of the B-tree dictionary index: the in-memory
`IndexedWords` builder map (`addWord` / `addSingleWord`), the on-disk
tree builder (`buildBtreeNode` / `buildIndex`), the tree reader
(`findChainOffsetExactOrPrefix`, `readChain`, `antialias`,
`findArticles`) and the asynchronous prefix/stemmed search loop
(`BtreeWordSearchRequest::run`).

Modelling conventions:
* Strings (`gd::wstring` and UTF-8 `std::string`) are modelled as
  `List Nat` of code points.  The UTF-8 codec (`Utf8::encode/decode`)
  is an external, order-preserving bijection between the two C++
  representations, so both sides are identified and the codec is the
  identity.  Unicode folding (`Folding::apply`,
  `Folding::applySimpleCaseOnly`) and the character classes
  (`Folding::isWhitespace`, `Folding::isPunct`) are external to the
  core (spec section 1) and are passed in as explicit function
  parameters.
* `uint32_t` values are `Nat`; all arithmetic on sizes in the source
  stays far below `2^32`, and no overflowing operation occurs on the
  paths modelled here.
* Raw pointers into node buffers are replaced by list indices/slices,
  and on-disk nodes by a list of decoded nodes (the node codec is
  byte-exact zlib framing, external to the logic verified here); the
  one place where the byte-level record format itself is the object of
  a claim (`readChain`) is modelled at the byte level.
-/

namespace BtreeIndexing

/-- A character / byte string, as a list of code points. -/
abbrev Str := List Nat

/-- `wstring::compare` / byte-lexicographic comparison of keys:
lexicographic, with a proper prefix ordered first. -/
def scompare : Str → Str → Ordering
  | [], [] => Ordering.eq
  | [], _ :: _ => Ordering.lt
  | _ :: _, [] => Ordering.gt
  | a :: as, b :: bs =>
    if a < b then Ordering.lt
    else if b < a then Ordering.gt
    else scompare as bs

/-- Strict "less than" on strings, derived from `scompare`. -/
def sLt (a b : Str) : Prop := scompare a b = Ordering.lt

instance : DecidablePred (fun p : Str × Str => sLt p.1 p.2) := by
  intro p; unfold sLt; infer_instance

theorem scompare_eq_iff : ∀ a b : Str, scompare a b = Ordering.eq ↔ a = b := by
  intro a
  induction a with
  | nil => intro b; cases b <;> simp [scompare]
  | cons x xs ih =>
    intro b
    cases b with
    | nil => simp [scompare]
    | cons y ys =>
      by_cases hxy : x < y
      · simp [scompare, hxy]
        omega
      · by_cases hyx : y < x
        · simp [scompare, hxy, hyx]
          omega
        · have hxyeq : x = y := by omega
          simp [scompare, hxy, hyx, hxyeq, ih]

theorem scompare_self (a : Str) : scompare a a = Ordering.eq :=
  (scompare_eq_iff a a).mpr rfl

theorem scompare_swap : ∀ a b : Str,
    scompare b a = (scompare a b).swap := by
  intro a
  induction a with
  | nil => intro b; cases b <;> simp [scompare, Ordering.swap]
  | cons x xs ih =>
    intro b
    cases b with
    | nil => simp [scompare, Ordering.swap]
    | cons y ys =>
      rcases Nat.lt_trichotomy x y with h | h | h
      · simp [scompare, h, Nat.lt_asymm h, Ordering.swap]
      · simp [scompare, h, ih]
      · simp [scompare, h, Nat.lt_asymm h, Ordering.swap]

theorem sLt_trans : ∀ a b c : Str, sLt a b → sLt b c → sLt a c := by
  intro a
  induction a with
  | nil =>
    intro b c hab hbc
    cases c with
    | nil =>
      cases b with
      | nil => exact hab
      | cons y ys => simp [sLt, scompare] at hbc
    | cons z zs => simp [sLt, scompare]
  | cons x xs ih =>
    intro b c hab hbc
    cases b with
    | nil => simp [sLt, scompare] at hab
    | cons y ys =>
      cases c with
      | nil => simp [sLt, scompare] at hbc
      | cons z zs =>
        simp only [sLt, scompare] at hab hbc ⊢
        by_cases hxy : x < y
        · -- x < y; need x < z
          by_cases hyz : y < z
          · simp [Nat.lt_trans hxy hyz]
          · by_cases hzy : z < y
            · simp [hyz, hzy] at hbc
            · have : y = z := by omega
              simp [this ▸ hxy]
        · by_cases hyx : y < x
          · simp [hxy, hyx] at hab
          · have hxyeq : x = y := by omega
            subst hxyeq
            simp only [hxy, if_neg, Nat.lt_irrefl, if_false] at hab
            by_cases hxz : x < z
            · simp [hxz]
            · by_cases hzx : z < x
              · simp [hxz, hzx] at hbc
              · have : x = z := by omega
                subst this
                simp only [Nat.lt_irrefl, if_false] at hbc ⊢
                exact ih ys zs hab hbc

theorem sLt_irrefl (a : Str) : ¬ sLt a a := by
  simp [sLt, scompare_self]

theorem sLt_asymm {a b : Str} (h : sLt a b) : ¬ sLt b a := by
  intro h'
  exact sLt_irrefl a (sLt_trans a b a h h')

theorem scompare_gt_iff {a b : Str} :
    scompare a b = Ordering.gt ↔ sLt b a := by
  unfold sLt
  rw [scompare_swap a b]
  cases scompare a b <;> simp [Ordering.swap]

theorem sLt_of_ne_of_not_gt {a b : Str}
    (hne : scompare a b ≠ Ordering.eq) (hng : scompare a b ≠ Ordering.gt) :
    sLt a b := by
  unfold sLt
  cases h : scompare a b
  · rfl
  · exact absurd h hne
  · exact absurd h hng

/-- A word/article record (`WordArticleLink`): the original word, the
article offset, and the prefix preceding the word inside the original
headword.  (The C++ field `prefix` is called `pfx` here.) -/
structure WordArticleLink where
  word : Str
  pfx : Str
  off : Nat
deriving DecidableEq, Repr, Inhabited

/-- A chain: the records sharing one folded key. -/
abbrev Chain := List WordArticleLink

/-- One entry of the in-memory index: folded key plus its chain. -/
abbrev Entry := Str × Chain

/-- `IndexedWords`: a `std::map` from folded key to chain, modelled as
an association list kept sorted by `scompare` on keys. -/
abbrev IndexedWords := List Entry

/-- Sortedness invariant of `std::map`: keys strictly increasing. -/
def SortedKeys (m : IndexedWords) : Prop :=
  List.Pairwise (fun a b : Entry => sLt a.1 b.1) m

/-- `std::map::insert`: inserts at the sorted position; if the key is
already present the map is left unchanged (no overwrite). -/
def mapInsert (k : Str) (v : Chain) : IndexedWords → IndexedWords
  | [] => [(k, v)]
  | (k', v') :: rest =>
    match scompare k k' with
    | Ordering.lt => (k, v) :: (k', v') :: rest
    | Ordering.eq => (k', v') :: rest
    | Ordering.gt => (k', v') :: mapInsert k v rest

/-- Chain lookup in the map (`std::map::find`-style). -/
def mapLookup (k : Str) : IndexedWords → Option Chain
  | [] => none
  | (k', v') :: rest =>
    if scompare k k' = Ordering.eq then some v' else mapLookup k rest

/-- `IndexedWords::addSingleWord` (btreeidx.cc:965-973): build a
one-record chain `{word, articleOffset, prefix=""}` and `insert` it
under the folded key.  `fold` stands for `Folding::apply`. -/
def addSingleWord (fold : Str → Str) (word : Str) (articleOffset : Nat)
    (m : IndexedWords) : IndexedWords :=
  mapInsert (fold word) [⟨word, [], articleOffset⟩] m

theorem mapInsert_mem_unchanged (k : Str) (v : Chain) :
    ∀ m : IndexedWords, SortedKeys m → (∃ c, (k, c) ∈ m) →
      mapInsert k v m = m := by
  intro m
  induction m with
  | nil => intro _ h; rcases h with ⟨c, hc⟩; cases hc
  | cons e rest ih =>
    intro hs hmem
    rcases hmem with ⟨c, hc⟩
    rcases e with ⟨k', v'⟩
    rcases List.mem_cons.mp hc with h | h
    · have hk : k = k' := congrArg Prod.fst h
      have : scompare k k' = Ordering.eq := (scompare_eq_iff k k').mpr hk
      simp [mapInsert, this]
    · -- k is in the tail, hence k' < k by sortedness
      have hlt : sLt k' k := by
        have := (List.pairwise_cons.mp hs).1 (k, c) h
        exact this
      have hgt : scompare k k' = Ordering.gt := scompare_gt_iff.mpr hlt
      have htail : mapInsert k v rest = rest :=
        ih (List.pairwise_cons.mp hs).2 ⟨c, h⟩
      simp [mapInsert, hgt, htail]

/-- C10: if the folded key of `w` is already present in the (sorted)
map, `addSingleWord` leaves the map completely unchanged: the new link
is silently discarded. -/
theorem addSingleWord_discards_on_existing_key
    (fold : Str → Str) (w : Str) (o : Nat) (m : IndexedWords)
    (hs : SortedKeys m) (hmem : ∃ c, (fold w, c) ∈ m) :
    addSingleWord fold w o m = m :=
  mapInsert_mem_unchanged _ _ m hs hmem

theorem addSingleWord_discards_on_existing_key_witness :
    SortedKeys [([1], [⟨[1], [], 5⟩])] ∧
      (∃ c, (([1] : Str), c) ∈ ([(([1] : Str), [⟨[1], [], 5⟩])] : IndexedWords)) ∧
      addSingleWord id [1] 7 [([1], [⟨[1], [], 5⟩])] = [([1], [⟨[1], [], 5⟩])] := by
  refine ⟨?_, ⟨[⟨[1], [], 5⟩], by simp⟩, ?_⟩
  · simp [SortedKeys]
  · exact addSingleWord_discards_on_existing_key id [1] 7 _
      (by simp [SortedKeys]) ⟨[⟨[1], [], 5⟩], by simp⟩

/-- The append step inside `IndexedWords::addWord` (btreeidx.cc:933-951):
`insert` the key with an empty chain when absent, then append
`link` to the chain obtained — but only when the chain has fewer than
1024 entries or the suffix starts at the first character
(`nextChar == wordBegin`, here `firstPos`). -/
def addWordStep (k : Str) (l : WordArticleLink) (firstPos : Bool) :
    IndexedWords → IndexedWords
  | [] => [(k, [l])]
  | (k', c) :: rest =>
    match scompare k k' with
    | Ordering.lt => (k, [l]) :: (k', c) :: rest
    | Ordering.eq =>
      (k', if c.length < 1024 || firstPos then c ++ [l] else c) :: rest
    | Ordering.gt => (k', c) :: addWordStep k l firstPos rest

/-- First position at or after `pos` where `p` stops holding
(a `for(;;++nextChar)` scan). -/
def skipWhileFrom (p : Nat → Bool) (s : Str) (pos : Nat) : Nat :=
  pos + ((s.drop pos).takeWhile p).length

/-- Whitespace-or-punctuation test used by the `addWord` tokenizer. -/
def isSep (isWS isPunct : Nat → Bool) (c : Nat) : Bool := isWS c || isPunct c

/-- The token loop of `IndexedWords::addWord` (btreeidx.cc:918-962):
skip whitespace/punctuation; at each token boundary `p` insert the
suffix starting at `p` (key = fold of the whole remaining suffix,
word = suffix clipped to the trailing-whitespace-trimmed length,
prefix = everything before `p`); then skip the token and repeat. -/
def addWordLoop (isWS isPunct : Nat → Bool) (fold : Str → Str)
    (articleOffset : Nat) (wb : Str) (wordSize : Nat) :
    Nat → Nat → IndexedWords → IndexedWords
  | 0, _, m => m
  | fuel + 1, pos, m =>
    let p := skipWhileFrom (isSep isWS isPunct) wb pos
    if p < wb.length then
      let key := fold (wb.drop p)
      let utfWord := (wb.take wordSize).drop p
      let utfPrefix := wb.take p
      let m' := addWordStep key ⟨utfWord, utfPrefix, articleOffset⟩
        (decide (p = 0)) m
      let q := skipWhileFrom (fun c => !(isSep isWS isPunct c)) wb (p + 1)
      addWordLoop isWS isPunct fold articleOffset wb wordSize fuel q m'
    else m

/-- `IndexedWords::addWord` (btreeidx.cc:898-963): strip leading and
trailing whitespace, then run the token loop from the first character. -/
def addWord (isWS isPunct : Nat → Bool) (fold : Str → Str)
    (word : Str) (articleOffset : Nat) (m : IndexedWords) : IndexedWords :=
  let wb := word.dropWhile (fun c => isWS c)
  let wordSize := wb.length - (wb.reverse.takeWhile (fun c => isWS c)).length
  addWordLoop isWS isPunct fold articleOffset wb wordSize (wb.length + 1) 0 m

/-- The chain currently stored under key `k` (empty when absent). -/
def chainOf (m : IndexedWords) (k : Str) : Chain := (mapLookup k m).getD []

theorem mapLookup_eq_some_mem {k : Str} {c : Chain} :
    ∀ {m : IndexedWords}, mapLookup k m = some c → (k, c) ∈ m := by
  intro m
  induction m with
  | nil => intro h; cases h
  | cons e rest ih =>
    intro h
    rcases e with ⟨k', v'⟩
    by_cases he : scompare k k' = Ordering.eq
    · have hk : k = k' := (scompare_eq_iff k k').mp he
      simp only [mapLookup, he, if_true, Option.some.injEq] at h
      exact List.mem_cons.mpr (Or.inl (by rw [hk, h]))
    · simp only [mapLookup, he, if_false] at h
      exact List.mem_cons_of_mem _ (ih h)

theorem mapLookup_none_of_lt_head {k k' : Str} {c : Chain}
    {rest : IndexedWords} (hs : SortedKeys ((k', c) :: rest))
    (hlt : sLt k k') : mapLookup k rest = none := by
  cases h : mapLookup k rest with
  | none => rfl
  | some c' =>
    have hmem := mapLookup_eq_some_mem h
    have := (List.pairwise_cons.mp hs).1 (k, c') hmem
    exact absurd hlt (sLt_asymm this)

/-- C6: in the insertion step of `addWord`, the link is appended to
the folded key's chain if and only if the chain has fewer than 1024
entries or the suffix starts at the first character; when the
condition fails the map is unchanged; and a middle-match insertion
(`firstPos = false`) never grows a chain past 1024 entries. -/
theorem addWord_append_iff (k : Str) (l : WordArticleLink)
    (firstPos : Bool) (m : IndexedWords) (hs : SortedKeys m) :
    (chainOf (addWordStep k l firstPos m) k = chainOf m k ++ [l]
       ↔ ((chainOf m k).length < 1024 ∨ firstPos = true))
    ∧ (¬ ((chainOf m k).length < 1024 ∨ firstPos = true) →
         addWordStep k l firstPos m = m)
    ∧ (firstPos = false →
         (chainOf (addWordStep k l firstPos m) k).length ≤
           max (chainOf m k).length 1024) := by
  induction m with
  | nil =>
    refine ⟨?_, ?_, ?_⟩
    · simp [chainOf, addWordStep, mapLookup, scompare_self]
    · simp [chainOf, mapLookup]
    · intro _; simp [chainOf, addWordStep, mapLookup, scompare_self]
  | cons e rest ih =>
    rcases e with ⟨k', c⟩
    have hs' : SortedKeys rest := (List.pairwise_cons.mp hs).2
    rcases ih hs' with ⟨ih1, ih2, ih3⟩
    cases hcmp : scompare k k' with
    | lt =>
      have hnone : mapLookup k rest = none :=
        mapLookup_none_of_lt_head hs hcmp
      have hne : scompare k k' ≠ Ordering.eq := by simp [hcmp]
      have hold : chainOf ((k', c) :: rest) k = [] := by
        simp [chainOf, mapLookup, hne, hnone]
      have hstep : addWordStep k l firstPos ((k', c) :: rest)
          = (k, [l]) :: (k', c) :: rest := by simp [addWordStep, hcmp]
      have hnew : chainOf ((k, [l]) :: (k', c) :: rest) k = [l] := by
        simp [chainOf, mapLookup, scompare_self]
      refine ⟨?_, ?_, ?_⟩
      · rw [hstep, hnew, hold]; simp
      · intro hcond; exact absurd (Or.inl (by rw [hold]; simp)) hcond
      · intro _; rw [hstep, hnew, hold]; simp
    | eq =>
      have hstep : addWordStep k l firstPos ((k', c) :: rest)
          = (k', if c.length < 1024 || firstPos then c ++ [l] else c) :: rest := by
        simp [addWordStep, hcmp]
      have hlook : ∀ c' : Chain, chainOf ((k', c') :: rest) k = c' := by
        intro c'; simp [chainOf, mapLookup, hcmp]
      have hold : chainOf ((k', c) :: rest) k = c := hlook c
      by_cases hcnd : (c.length < 1024 || firstPos) = true
      · have hcnd' : c.length < 1024 ∨ firstPos = true := by simpa using hcnd
        refine ⟨?_, ?_, ?_⟩
        · rw [hstep, if_pos hcnd, hlook, hold]
          simp [hcnd']
        · intro h; rw [hold] at h; exact absurd hcnd' h
        · intro hfp
          rw [hstep, if_pos hcnd, hlook, hold]
          subst hfp
          simp only [Bool.or_false, decide_eq_true_eq] at hcnd
          have := Nat.le_max_right c.length 1024
          simp only [List.length_append, List.length_cons, List.length_nil]
          omega
      · have hcnd' : ¬ (c.length < 1024 ∨ firstPos = true) := by
          intro h; exact hcnd (by simpa using h)
        refine ⟨?_, ?_, ?_⟩
        · rw [hstep, if_neg hcnd, hlook]
          constructor
          · intro habs
            exfalso
            have := congrArg List.length habs
            simp at this
          · intro h; exact absurd h hcnd'
        · intro _
          rw [hstep, if_neg hcnd]
        · intro _
          rw [hstep, if_neg hcnd, hlook]
          exact Nat.le_max_left _ _
    | gt =>
      have hne : scompare k k' ≠ Ordering.eq := by simp [hcmp]
      have hstep : addWordStep k l firstPos ((k', c) :: rest)
          = (k', c) :: addWordStep k l firstPos rest := by
        simp [addWordStep, hcmp]
      have hold : chainOf ((k', c) :: rest) k = chainOf rest k := by
        simp [chainOf, mapLookup, hne]
      have hstep2 : chainOf ((k', c) :: addWordStep k l firstPos rest) k
          = chainOf (addWordStep k l firstPos rest) k := by
        simp [chainOf, mapLookup, hne]
      refine ⟨?_, ?_, ?_⟩
      · rw [hstep, hstep2, hold]; exact ih1
      · intro hcond
        rw [hold] at hcond
        rw [hstep, ih2 hcond]
      · intro hfp
        rw [hstep, hstep2, hold]
        exact ih3 hfp

theorem addWord_append_iff_witness :
    ((chainOf (addWordStep [3] ⟨[3], [1, 2], 9⟩ false [([3], [⟨[3], [], 4⟩])]) [3]
        = chainOf [([3], [⟨[3], [], 4⟩])] [3] ++ [⟨[3], [1, 2], 9⟩])
      ↔ ((chainOf [([3], [⟨[3], [], 4⟩])] [3]).length < 1024 ∨ false = true)) ∧
    SortedKeys [([3], [⟨[3], [], 4⟩])] :=
  ⟨(addWord_append_iff [3] ⟨[3], [1, 2], 9⟩ false [([3], [⟨[3], [], 4⟩])]
      (by simp [SortedKeys])).1,
   by simp [SortedKeys]⟩

/-! ## Chain byte format and `readChain` (btreeidx.cc:670-703) -/

/-- Little-endian 32-bit encoding, as written by `File::write<uint32_t>`. -/
def u32Bytes (n : Nat) : List Nat :=
  [n % 256, n / 256 % 256, n / 65536 % 256, n / 16777216 % 256]

/-- Little-endian 32-bit decoding (`memcpy` into a `uint32_t`). -/
def decodeU32 (bs : List Nat) : Nat :=
  bs.getD 0 0 + 256 * (bs.getD 1 0 + 256 * (bs.getD 2 0 + 256 * bs.getD 3 0))

/-- Read a NUL-terminated string: the string and the bytes after the NUL. -/
def parseCString (bs : List Nat) : Str × List Nat :=
  (bs.takeWhile (fun b => b != 0), (bs.dropWhile (fun b => b != 0)).drop 1)

/-- Serialization of one record, as emitted by the leaf writer
(btreeidx.cc:776-788): `word NUL prefix NUL u32 articleOffset`. -/
def linkBytes (l : WordArticleLink) : List Nat :=
  l.word ++ [0] ++ l.pfx ++ [0] ++ u32Bytes l.off

/-- Serialization of a whole chain (without its leading size word). -/
def chainBytes (c : Chain) : List Nat := (c.map linkBytes).flatten

/-- Size of the record parsed greedily at the head of `bytes`. -/
def recSizeAt (bytes : List Nat) : Nat :=
  (parseCString bytes).1.length + 1 +
    (parseCString (parseCString bytes).2).1.length + 1 + 4

/-- Bytes remaining after the record parsed at the head of `bytes`. -/
def restAt (bytes : List Nat) : List Nat :=
  ((parseCString (parseCString bytes).2).2).drop 4

/-- The record parsed at the head of `bytes`. -/
def recAt (bytes : List Nat) : WordArticleLink :=
  ⟨(parseCString bytes).1, (parseCString (parseCString bytes).2).1,
    decodeU32 ((parseCString (parseCString bytes).2).2.take 4)⟩

inductive ChainErr where
  | corrupted
  | fuelOut
deriving DecidableEq, Repr

/-- `BtreeIndex::readChain` (btreeidx.cc:670-703): parse records until
`chainSize` bytes are consumed; after parsing each record, throw
`CorruptedChainData` when the remaining byte count cannot accommodate
it.  Fuel-based; `readChain` supplies sufficient fuel. -/
def readChainFrom : Nat → Nat → List Nat → Except ChainErr Chain
  | 0, _, _ => Except.error ChainErr.fuelOut
  | fuel + 1, chainSize, bytes =>
    if chainSize = 0 then Except.ok []
    else
      if chainSize < recSizeAt bytes then Except.error ChainErr.corrupted
      else
        match readChainFrom fuel (chainSize - recSizeAt bytes) (restAt bytes) with
        | Except.ok tail => Except.ok (recAt bytes :: tail)
        | Except.error e => Except.error e

def readChain (chainSize : Nat) (bytes : List Nat) : Except ChainErr Chain :=
  readChainFrom (chainSize + 1) chainSize bytes

/-- Structural well-formedness of a chain region: every greedily
parsed record fits into the remaining declared size, ending exactly
at zero. -/
inductive ChainWF : Nat → List Nat → Prop
  | nil (bytes : List Nat) : ChainWF 0 bytes
  | cons (chainSize : Nat) (bytes : List Nat)
      (hnz : chainSize ≠ 0)
      (hfit : recSizeAt bytes ≤ chainSize)
      (htail : ChainWF (chainSize - recSizeAt bytes) (restAt bytes)) :
      ChainWF chainSize bytes

/-- Validity of an in-memory chain for serialization: no NUL bytes
inside strings, offsets below `2^32`. -/
def ValidChain (c : Chain) : Prop :=
  ∀ l ∈ c, (∀ b ∈ l.word, b ≠ 0) ∧ (∀ b ∈ l.pfx, b ≠ 0) ∧ l.off < 4294967296

theorem recSizeAt_pos (bytes : List Nat) : 6 ≤ recSizeAt bytes := by
  unfold recSizeAt
  omega

theorem readChainFrom_ok_chainWF :
    ∀ fuel chainSize bytes, (∃ c, readChainFrom fuel chainSize bytes = Except.ok c) →
      ChainWF chainSize bytes := by
  intro fuel
  induction fuel with
  | zero => intro cs bytes h; rcases h with ⟨c, hc⟩; cases hc
  | succ fuel ih =>
    intro cs bytes h
    rcases h with ⟨c, hc⟩
    by_cases h0 : cs = 0
    · subst h0; exact ChainWF.nil bytes
    · simp only [readChainFrom, h0, if_false] at hc
      by_cases hfit : cs < recSizeAt bytes
      · simp [hfit] at hc
      · simp only [hfit, if_false] at hc
        cases htail : readChainFrom fuel (cs - recSizeAt bytes) (restAt bytes) with
        | ok tail =>
          exact ChainWF.cons cs bytes h0 (Nat.le_of_not_lt hfit)
            (ih _ _ ⟨tail, htail⟩)
        | error e => rw [htail] at hc; cases hc

theorem chainWF_readChainFrom_ok :
    ∀ chainSize bytes, ChainWF chainSize bytes →
      ∀ fuel, chainSize < fuel →
        ∃ c, readChainFrom fuel chainSize bytes = Except.ok c := by
  intro cs bytes h
  induction h with
  | nil bytes =>
    intro fuel hf
    cases fuel with
    | zero => omega
    | succ f => exact ⟨[], by simp [readChainFrom]⟩
  | cons cs bytes hnz hfit htail ih =>
    intro fuel hf
    cases fuel with
    | zero => omega
    | succ f =>
      have hrec := recSizeAt_pos bytes
      have hlt : cs - recSizeAt bytes < f := by omega
      rcases ih f hlt with ⟨tail, htail'⟩
      refine ⟨recAt bytes :: tail, ?_⟩
      simp [readChainFrom, hnz, Nat.not_lt_of_le hfit, htail']

theorem readChainFrom_no_fuelOut :
    ∀ fuel chainSize bytes, chainSize < fuel →
      readChainFrom fuel chainSize bytes ≠ Except.error ChainErr.fuelOut := by
  intro fuel
  induction fuel with
  | zero => intro cs bytes h; omega
  | succ f ih =>
    intro cs bytes h
    by_cases h0 : cs = 0
    · simp [readChainFrom, h0]
    · by_cases hfit : cs < recSizeAt bytes
      · simp [readChainFrom, h0, hfit]
      · have hrec := recSizeAt_pos bytes
        have hlt : cs - recSizeAt bytes < f := by omega
        have := ih (cs - recSizeAt bytes) (restAt bytes) hlt
        simp only [readChainFrom, h0, if_false, hfit]
        cases htail : readChainFrom f (cs - recSizeAt bytes) (restAt bytes) with
        | ok tail => simp
        | error e =>
          rw [htail] at this
          exact this

theorem takeWhile_ne_append {w rest : List Nat} (hw : ∀ b ∈ w, b ≠ 0) :
    (w ++ 0 :: rest).takeWhile (fun b => b != 0) = w ∧
      (w ++ 0 :: rest).dropWhile (fun b => b != 0) = 0 :: rest := by
  induction w with
  | nil => simp [List.takeWhile, List.dropWhile]
  | cons x xs ih =>
    have hx : x ≠ 0 := hw x (List.mem_cons_self x xs)
    have hxb : (x != 0) = true := by simpa using hx
    have hxs : ∀ b ∈ xs, b ≠ 0 := fun b hb => hw b (List.mem_cons_of_mem x hb)
    rcases ih hxs with ⟨h1, h2⟩
    constructor
    · simp [List.takeWhile, hxb, h1]
    · simp [List.dropWhile, hxb, h2]

theorem parseCString_append {w rest : List Nat} (hw : ∀ b ∈ w, b ≠ 0) :
    parseCString (w ++ 0 :: rest) = (w, rest) := by
  rcases @takeWhile_ne_append w rest hw with ⟨h1, h2⟩
  simp [parseCString, h1, h2]

theorem decodeU32_u32Bytes {n : Nat} (h : n < 4294967296) :
    decodeU32 (u32Bytes n) = n := by
  simp only [u32Bytes, decodeU32, List.getD_cons_zero, List.getD_cons_succ]
  omega

theorem chainBytes_roundtrip :
    ∀ (c : Chain) (tail : List Nat), ValidChain c →
      ∀ fuel, (chainBytes c).length < fuel →
        readChainFrom fuel (chainBytes c).length (chainBytes c ++ tail) =
          Except.ok c := by
  intro c
  induction c with
  | nil =>
    intro tail _ fuel hf
    cases fuel with
    | zero => omega
    | succ f => simp [readChainFrom, chainBytes]
  | cons l c' ih =>
    intro tail hv fuel hf
    have hvl := hv l (List.mem_cons_self l c')
    have hvc' : ValidChain c' := fun x hx => hv x (List.mem_cons_of_mem l hx)
    cases fuel with
    | zero => omega
    | succ f =>
      have hbytes : chainBytes (l :: c') ++ tail =
          l.word ++ 0 :: (l.pfx ++ 0 :: (u32Bytes l.off ++ (chainBytes c' ++ tail))) := by
        simp [chainBytes, linkBytes]
      have hp1 : parseCString (chainBytes (l :: c') ++ tail) =
          (l.word, l.pfx ++ 0 :: (u32Bytes l.off ++ (chainBytes c' ++ tail))) := by
        rw [hbytes]; exact parseCString_append hvl.1
      have hp2 : parseCString (l.pfx ++ 0 :: (u32Bytes l.off ++ (chainBytes c' ++ tail))) =
          (l.pfx, u32Bytes l.off ++ (chainBytes c' ++ tail)) :=
        parseCString_append hvl.2.1
      have hu32len : (u32Bytes l.off).length = 4 := by simp [u32Bytes]
      have htake : (u32Bytes l.off ++ (chainBytes c' ++ tail)).take 4 = u32Bytes l.off := by
        rw [List.take_append_of_le_length (by omega)]
        exact List.take_of_length_le (by omega)
      have hdrop : (u32Bytes l.off ++ (chainBytes c' ++ tail)).drop 4 = chainBytes c' ++ tail := by
        rw [List.drop_append_of_le_length (by omega)]
        simp [List.drop_of_length_le, hu32len]
      have hrec : recSizeAt (chainBytes (l :: c') ++ tail) =
          l.word.length + 1 + l.pfx.length + 1 + 4 := by
        simp [recSizeAt, hp1, hp2]
      have hrest : restAt (chainBytes (l :: c') ++ tail) = chainBytes c' ++ tail := by
        simp [restAt, hp1, hp2, hdrop]
      have hrecat : recAt (chainBytes (l :: c') ++ tail) = l := by
        simp [recAt, hp1, hp2, htake, decodeU32_u32Bytes hvl.2.2]
      have hlen : (chainBytes (l :: c')).length =
          l.word.length + 1 + l.pfx.length + 1 + 4 + (chainBytes c').length := by
        simp [chainBytes, linkBytes, hu32len]
        omega
      have hnz : (chainBytes (l :: c')).length ≠ 0 := by omega
      have hnlt : ¬ ((chainBytes (l :: c')).length < recSizeAt (chainBytes (l :: c') ++ tail)) := by
        rw [hrec]; omega
      have hsub : (chainBytes (l :: c')).length - recSizeAt (chainBytes (l :: c') ++ tail) =
          (chainBytes c').length := by
        rw [hrec]; omega
      have hfc : (chainBytes c').length < f := by omega
      simp only [readChainFrom, hnz, if_false, hnlt, hsub, hrest, hrecat,
        ih tail hvc' f hfc]

/-- C7: `readChain` succeeds exactly when every greedily parsed record
fits into the remaining declared byte count (ending at exactly zero),
never exhausts its fuel, and parses back exactly the record sequence
produced by the leaf serializer (word NUL, prefix NUL, u32 offset),
consuming the whole chain. -/
theorem readChain_parses_chains :
    (∀ chainSize bytes,
        ((∃ c, readChain chainSize bytes = Except.ok c) ↔ ChainWF chainSize bytes)
        ∧ readChain chainSize bytes ≠ Except.error ChainErr.fuelOut)
    ∧ (∀ (c : Chain) (tail : List Nat), ValidChain c →
        readChain (chainBytes c).length (chainBytes c ++ tail) = Except.ok c) := by
  constructor
  · intro cs bytes
    constructor
    · constructor
      · exact readChainFrom_ok_chainWF _ _ _
      · intro hwf
        exact chainWF_readChainFrom_ok cs bytes hwf (cs + 1) (by omega)
    · exact readChainFrom_no_fuelOut _ _ _ (by omega)
  · intro c tail hv
    exact chainBytes_roundtrip c tail hv _ (by omega)

theorem readChain_parses_chains_witness :
    readChain (chainBytes [⟨[7], [8], 3⟩]).length
        (chainBytes [⟨[7], [8], 3⟩] ++ [1, 2]) = Except.ok [⟨[7], [8], 3⟩] :=
  readChain_parses_chains.2 [⟨[7], [8], 3⟩] [1, 2]
    (by intro l hl; simp at hl; subst hl; refine ⟨by simp, by simp, by norm_num⟩)

/-! ## Tree builder (`buildBtreeNode` / `buildIndex`, btreeidx.cc:728-1010)

The index file is modelled as a list of decoded nodes; the on-disk
address of the node stored at list position `i` is `i + 1`, so that
address `0` can play the role of the null offset, exactly as in the
file format (offset 0 never addresses a node).  The zlib node codec
(byte framing `u32 uncompressed | u32 compressed | payload`) is
lossless and orthogonal to the logic verified here, so nodes are kept
in decoded form.  A leaf carries its trailing forward-link word
(which sits outside the compressed payload on disk).  -/

inductive FNode where
  | leaf (items : List Entry) (next : Nat)
  | node (children : List Nat) (pivots : List Str)
deriving DecidableEq, Repr, Inhabited

/-- Fetch the node at address `addr` (addresses are 1-based). -/
def getNode (file : List FNode) (addr : Nat) : FNode :=
  file.getD (addr - 1) (FNode.node [] [])

/-- Overwrite the forward link of a leaf (the builder's seek-and-patch). -/
def setNext : FNode → Nat → FNode
  | FNode.leaf items _, t => FNode.leaf items t
  | n, _ => n

def patchLink (file : List FNode) (addr target : Nat) : List FNode :=
  file.set (addr - 1) (setNext (file.getD (addr - 1) (FNode.node [] [])) target)

/-- Leaf emission (btreeidx.cc:868-893): record the node's offset,
append the leaf with a zero forward link, and if a previous leaf
exists patch its link to point at this leaf; the returned
`lastLeafLinkOffset` identifies the new leaf. -/
def emitLeaf (items : List Entry) (file : List FNode) (lll : Nat) :
    List FNode × Nat × Nat :=
  let offset := file.length + 1
  let file1 := file ++ [FNode.leaf items 0]
  let file2 := if lll ≠ 0 then patchLink file1 lll offset else file1
  (file2, offset, offset)

/-- The child loop of `buildBtreeNode` (btreeidx.cc:802-824): for each
`x` build the child over the slice `[count*x/(F+1), count*(x+1)/(F+1))`
and record its offset, then record the pivot key at the iterator's
position (the first key of the next slice).  `bc` is the recursive
child builder; the function threads the file and the last-leaf-link
state and returns (file, child offsets, pivots, link state). -/
def buildKids (bc : Nat → Nat → List FNode → Nat → List FNode × Nat × Nat)
    (all : List Entry) (fp1 : Nat) (start count : Nat) :
    List Nat → List FNode → Nat → List FNode × List Nat × List Str × Nat
  | [], file, lll => (file, [], [], lll)
  | x :: xs, file, lll =>
    let prev := count * x / fp1
    let cur := count * (x + 1) / fp1
    let r := bc (start + prev) (cur - prev) file lll
    let piv := (all.getD (start + cur) ([], [])).1
    let rest := buildKids bc all fp1 start count xs r.1 r.2.2
    (rest.1, r.2.1 :: rest.2.1, piv :: rest.2.2.1, rest.2.2.2)

/-- `buildBtreeNode` (btreeidx.cc:731-896): a subtree over
`count` entries starting at index `start` of `all`.  If
`count ≤ maxElements` emit a leaf over that slice; otherwise build the
`F` sliced children plus the rightmost child over the remainder and
emit an internal node holding the `F+1` child offsets and `F` pivots.
Fuel-based recursion; `buildIndex` supplies `count` as fuel, which the
lemmas below show is sufficient. -/
def buildNode (F : Nat) (all : List Entry) :
    Nat → Nat → Nat → List FNode → Nat → List FNode × Nat × Nat
  | fuel, start, count, file, lll =>
    if count ≤ F then
      emitLeaf ((all.drop start).take count) file lll
    else
      match fuel with
      | 0 => (file, 0, lll)
      | fuel + 1 =>
        let r := buildKids (fun s c fl ll => buildNode F all fuel s c fl ll)
          all (F + 1) start count (List.range F) file lll
        let prevLast := count * F / (F + 1)
        let r2 := buildNode F all fuel (start + prevLast) (count - prevLast)
          r.1 r.2.2.2
        (r2.1 ++ [FNode.node (r.2.1 ++ [r2.2.1]) r.2.2.1], r2.1.length + 1, r2.2.2)

/-- Fanout selection in `buildIndex` (btreeidx.cc:989-998):
`floor(sqrt(indexSize)) + 1` clamped to `[BtreeMinElements,
BtreeMaxElements] = [64, 4096]`. -/
def chooseFanout (n : Nat) : Nat := min (max (Nat.sqrt n + 1) 64) 4096

/-- Result of `buildIndex`: the `IndexInfo` plus the written file. -/
structure BuiltIndex where
  fanout : Nat
  rootOffset : Nat
  file : List FNode
deriving Repr

/-- `buildIndex` (btreeidx.cc:975-1010): skip leading empty-key
entries, choose the fanout, and build the tree. -/
def buildIndex (m : IndexedWords) : BuiltIndex :=
  let entries := m.dropWhile (fun e => e.1.isEmpty)
  let n := entries.length
  let F := chooseFanout n
  let r := buildNode F entries n 0 n [] 0
  ⟨F, r.2.1, r.1⟩

theorem not_sLt_nil (k : Str) : ¬ sLt k [] := by
  cases k <;> simp [sLt, scompare]

theorem dropWhile_empty_eq_filter {m : IndexedWords} (hs : SortedKeys m) :
    m.dropWhile (fun e => e.1.isEmpty) = m.filter (fun e => !e.1.isEmpty) := by
  induction m with
  | nil => rfl
  | cons e rest ih =>
    have hs' : SortedKeys rest := (List.pairwise_cons.mp hs).2
    have hrest : ∀ e' ∈ rest, e'.1 ≠ ([] : Str) → True := fun _ _ _ => trivial
    by_cases he : e.1.isEmpty
    · have henil : e.1 = [] := List.isEmpty_iff.mp he
      have hnoempty : ∀ e' ∈ rest, ¬ e'.1.isEmpty := by
        intro e' he'
        have hlt := (List.pairwise_cons.mp hs).1 e' he'
        rw [henil] at hlt
        intro habs
        rw [List.isEmpty_iff.mp habs] at hlt
        exact not_sLt_nil [] hlt
      have hfil : rest.filter (fun e' => !e'.1.isEmpty) = rest := by
        apply List.filter_eq_self.mpr
        intro e' he'
        simpa using hnoempty e' he'
      have hdrop : rest.dropWhile (fun e' => e'.1.isEmpty) = rest := by
        cases rest with
        | nil => rfl
        | cons e' rest' =>
          have := hnoempty e' (List.mem_cons_self _ _)
          simp [List.dropWhile, this]
      simp [List.dropWhile, List.filter, he, hdrop, hfil]
    · simp only [List.dropWhile, List.filter, he]
      have hnoempty : ∀ e' ∈ rest, ¬ e'.1.isEmpty := by
        intro e' he'
        have hlt := (List.pairwise_cons.mp hs).1 e' he'
        intro habs
        rw [List.isEmpty_iff.mp habs] at hlt
        exact not_sLt_nil _ hlt
      have hfil : rest.filter (fun e' => !e'.1.isEmpty) = rest := by
        apply List.filter_eq_self.mpr
        intro e' he'
        simpa using hnoempty e' he'
      simp [he, hfil]

theorem sqrt_5000 : Nat.sqrt 5000 = 70 := by
  have h1 : 70 ≤ Nat.sqrt 5000 := Nat.le_sqrt.mpr (by norm_num)
  have h2 : Nat.sqrt 5000 < 71 := Nat.sqrt_lt.mpr (by norm_num)
  omega

/-- C3: the fanout returned by `buildIndex` for a map with `n`
non-empty-key entries equals `clamp(floor(sqrt(n)) + 1, 64, 4096)`,
hence always lies in `[64, 4096]`; for `n = 5000` it is `71`. -/
theorem buildIndex_fanout (m : IndexedWords) (hs : SortedKeys m) :
    (buildIndex m).fanout
        = min (max (Nat.sqrt (m.filter (fun e => !e.1.isEmpty)).length + 1) 64) 4096
      ∧ 64 ≤ (buildIndex m).fanout ∧ (buildIndex m).fanout ≤ 4096
      ∧ chooseFanout 5000 = 71 := by
  have hfan : (buildIndex m).fanout
      = chooseFanout (m.dropWhile (fun e => e.1.isEmpty)).length := rfl
  rw [hfan, dropWhile_empty_eq_filter hs]
  refine ⟨rfl, ?_, ?_, ?_⟩
  · unfold chooseFanout; omega
  · unfold chooseFanout; omega
  · unfold chooseFanout
    rw [sqrt_5000]
    omega

theorem buildIndex_fanout_witness :
    SortedKeys [([2], [⟨[2], [], 1⟩])] ∧
      (buildIndex [([2], [⟨[2], [], 1⟩])]).fanout
        = min (max (Nat.sqrt (([(([2] : Str), ([⟨[2], [], 1⟩] : Chain))] : IndexedWords).filter
            (fun e => !e.1.isEmpty)).length + 1) 64) 4096 :=
  ⟨by simp [SortedKeys],
   (buildIndex_fanout [([2], [⟨[2], [], 1⟩])] (by simp [SortedKeys])).1⟩

/-! ## Tree reader (btreeidx.cc:363-725)

`findChainOffsetExactOrPrefix` descends from the root: at an internal
node it binary-searches the pivot region and recurses into the chosen
child; at a leaf it binary-searches the chain array, re-deriving each
chain's folded key by folding the first record's word.  Pointer
arithmetic over the NUL-separated pivot region is replaced by index
arithmetic over the pivot list (the spec's pivot-offset-array
equivalence, section 9); the probing order may differ but every
return path mirrors a return path of the source.  -/

/-- Search outcome inside a leaf, mirroring the four exits of the
loop at btreeidx.cc:580-665. -/
inductive LeafFind where
  | exactAt (i : Nat)
  | prefixAt (i : Nat)
  | nextAt (i : Nat)
  | advance
deriving DecidableEq, Repr

/-- The folded key of the chain stored at position `i` of a leaf:
leaves store original words, and the key is re-derived by folding the
first record's word (btreeidx.cc:590-604). -/
def chainKeyAt (fold : Str → Str) (items : List Entry) (i : Nat) : Str :=
  fold (((items.getD i ([], [])).2.headD default).word)

/-- Pivot binary search of an internal node (btreeidx.cc:406-526),
returning the child index to descend into: on equality the right
child of the pivot, otherwise the window is narrowed left/right until
empty. -/
def pivotSearchGo (target : Str) (pivots : List Str) :
    Nat → Nat → Nat → Nat
  | 0, lo, _ => lo
  | fuel + 1, lo, size =>
    let idx := lo + size / 2
    match scompare target (pivots.getD idx []) with
    | Ordering.eq => idx + 1
    | Ordering.lt =>
      let size' := size / 2
      if size' = 0 then idx else pivotSearchGo target pivots fuel lo size'
    | Ordering.gt =>
      let size' := size - size / 2 - 1
      if size' = 0 then idx + 1 else pivotSearchGo target pivots fuel (idx + 1) size'

def pivotSearch (target : Str) (pivots : List Str) : Nat :=
  pivotSearchGo target pivots (pivots.length + 1) 0 pivots.length

/-- Chain binary search inside a leaf (btreeidx.cc:577-665). -/
def chainSearchGo (fold : Str → Str) (items : List Entry) (target : Str) :
    Nat → Nat → Nat → LeafFind
  | 0, lo, _ => LeafFind.prefixAt lo
  | fuel + 1, lo, size =>
    let i := lo + size / 2
    match scompare target (chainKeyAt fold items i) with
    | Ordering.eq => LeafFind.exactAt i
    | Ordering.lt =>
      let size' := size / 2
      if size' = 0 then LeafFind.prefixAt i
      else chainSearchGo fold items target fuel lo size'
    | Ordering.gt =>
      let size' := size - size / 2 - 1
      if size' = 0 then
        if i = items.length - 1 then LeafFind.advance else LeafFind.nextAt (i + 1)
      else chainSearchGo fold items target fuel (i + 1) size'

def chainSearch (fold : Str → Str) (items : List Entry) (target : Str) : LeafFind :=
  chainSearchGo fold items target (items.length + 1) 0 items.length

inductive BErr where
  | corrupted
  | fuelOut
deriving DecidableEq, Repr

/-- Result of `findChainOffsetExactOrPrefix`: the chains of the
current leaf from the hit position onward (the returned pointer plus
the leaf buffer up to `leafEnd`), the `nextLeaf` offset, and the
`exactMatch` flag. -/
structure Hit where
  chains : List Chain
  nextLeaf : Nat
  exact : Bool
deriving DecidableEq, Repr

/-- `BtreeIndex::findChainOffsetExactOrPrefix` (btreeidx.cc:363-668).
At a leaf, `nextLeaf` is read from the file only when the leaf is not
the (precached) root; an empty leaf is legal only as the root,
otherwise `CorruptedChainData`; in the advance case the next leaf is
fetched and its first chain returned.  Fuel-based; callers pass
`file.length + 1` which the lemmas below show sufficient for built
trees. -/
def findFrom (fold : Str → Str) (file : List FNode) (rootOffset : Nat)
    (target : Str) : Nat → Nat → Except BErr (Option Hit)
  | 0, _ => Except.error BErr.fuelOut
  | fuel + 1, addr =>
    match getNode file addr with
    | FNode.node children _pivots =>
      let j := pivotSearch target _pivots
      findFrom fold file rootOffset target fuel (children.getD j 0)
    | FNode.leaf items next =>
      let nextLeaf := if addr ≠ rootOffset then next else 0
      if items.length = 0 then
        if addr ≠ rootOffset then Except.error BErr.corrupted
        else Except.ok none
      else
        match chainSearch fold items target with
        | LeafFind.exactAt i =>
          Except.ok (some ⟨(items.drop i).map (fun e => e.2), nextLeaf, true⟩)
        | LeafFind.prefixAt i =>
          Except.ok (some ⟨(items.drop i).map (fun e => e.2), nextLeaf, false⟩)
        | LeafFind.nextAt i =>
          Except.ok (some ⟨(items.drop i).map (fun e => e.2), nextLeaf, false⟩)
        | LeafFind.advance =>
          if nextLeaf ≠ 0 then
            match getNode file nextLeaf with
            | FNode.leaf items2 next2 =>
              Except.ok (some ⟨items2.map (fun e => e.2), next2, false⟩)
            | FNode.node _ _ => Except.error BErr.corrupted
          else Except.ok none

/-- One step of the `antialias` loop body (btreeidx.cc:710-724) at
index `x`: erase the record when its simple-case fold of
`prefix + word` differs from the query's, else merge a non-empty
prefix into the word. -/
def antialiasAt (foldCase : Str → Str) (qf : Str) (c : Chain) (x : Nat) : Chain :=
  let l := c.getD x default
  if foldCase (l.pfx ++ l.word) ≠ qf then c.eraseIdx x
  else if l.pfx ≠ [] then c.set x ⟨l.pfx ++ l.word, [], l.off⟩
  else c

/-- The descending loop `for (unsigned x = chain.size(); x--;)`. -/
def antialiasLoop (foldCase : Str → Str) (qf : Str) : Nat → Chain → Chain
  | 0, c => c
  | x + 1, c => antialiasLoop foldCase qf x (antialiasAt foldCase qf c x)

/-- `BtreeIndex::antialias` (btreeidx.cc:705-725). -/
def antialias (foldCase : Str → Str) (q : Str) (c : Chain) : Chain :=
  antialiasLoop foldCase (foldCase q) c.length c

/-- `BtreeIndex::findArticles` (btreeidx.cc:79-104): fold the query,
locate the chain, and when the match is exact read the chain and
antialias it against the original query; otherwise return nothing. -/
def findArticles (fold foldCase : Str → Str) (idx : BuiltIndex) (q : Str) :
    Except BErr (List WordArticleLink) :=
  match findFrom fold idx.file idx.rootOffset (fold q) (idx.file.length + 1)
      idx.rootOffset with
  | Except.error e => Except.error e
  | Except.ok none => Except.ok []
  | Except.ok (some h) =>
    if h.exact then Except.ok (antialias foldCase q (h.chains.headD []))
    else Except.ok []

/-- C8: building from only empty-key inputs yields a single leaf with
zero chains; every lookup on it returns "no match" (`findArticles`
returns the empty list, `findChainOffsetExactOrPrefix` returns null)
without raising an error; and an empty leaf raises
`CorruptedChainData` exactly when it is not the root. -/
theorem buildIndex_empty_no_match (fold foldCase : Str → Str)
    (m : IndexedWords) (hall : ∀ e ∈ m, e.1 = ([] : Str)) :
    (buildIndex m).file = [FNode.leaf [] 0]
    ∧ (buildIndex m).rootOffset = 1
    ∧ (∀ q, findArticles fold foldCase (buildIndex m) q = Except.ok [])
    ∧ (∀ target fuel,
        findFrom fold (buildIndex m).file (buildIndex m).rootOffset target
          (fuel + 1) (buildIndex m).rootOffset = Except.ok none)
    ∧ (∀ (file : List FNode) (ro : Nat) (target : Str) (fuel addr nx : Nat),
        getNode file addr = FNode.leaf [] nx → addr ≠ ro →
          findFrom fold file ro target (fuel + 1) addr = Except.error BErr.corrupted) := by
  have hdrop : m.dropWhile (fun e => e.1.isEmpty) = [] := by
    apply List.dropWhile_eq_nil_iff.mpr
    intro e he
    simpa [List.isEmpty_iff] using hall e he
  have hfile : (buildIndex m).file = [FNode.leaf [] 0] := by
    simp [buildIndex, hdrop, buildNode, emitLeaf, chooseFanout]
  have hroot : (buildIndex m).rootOffset = 1 := by
    simp [buildIndex, hdrop, buildNode, emitLeaf, chooseFanout]
  have hfind : ∀ target fuel,
      findFrom fold (buildIndex m).file (buildIndex m).rootOffset target
        (fuel + 1) (buildIndex m).rootOffset = Except.ok none := by
    intro target fuel
    rw [hfile, hroot]
    simp [findFrom, getNode]
  refine ⟨hfile, hroot, ?_, hfind, ?_⟩
  · intro q
    have hfind' := hfind (fold q) 1
    rw [hfile, hroot] at hfind'
    unfold findArticles
    rw [hfile, hroot]
    simp [hfind']
  · intro file ro target fuel addr nx hleaf hne
    simp [findFrom, hleaf, hne]

theorem buildIndex_empty_no_match_witness :
    findArticles id id (buildIndex [(([] : Str), ([] : Chain))]) [3] = Except.ok [] :=
  (buildIndex_empty_no_match id id [(([] : Str), ([] : Chain))]
    (by intro e he; simp at he; rw [he])).2.2.1 [3]

/-! ## Antialias: the in-place loop equals a record-wise filter-map -/

theorem getD_append_length {α : Type} (u : List α) (l : α) (v : List α) (d : α) :
    (u ++ l :: v).getD u.length d = l := by
  induction u with
  | nil => rfl
  | cons x xs ih => simpa using ih

theorem eraseIdx_append_length {α : Type} (u : List α) (l : α) (v : List α) :
    (u ++ l :: v).eraseIdx u.length = u ++ v := by
  induction u with
  | nil => rfl
  | cons x xs ih => simpa [List.eraseIdx] using ih

theorem set_append_length {α : Type} (u : List α) (l y : α) (v : List α) :
    (u ++ l :: v).set u.length y = u ++ y :: v := by
  induction u with
  | nil => rfl
  | cons x xs ih => simp [List.set, ih]

/-- The record-wise description of `antialias` used by the spec:
discard records whose simple-case fold of `prefix + word` differs
from the query's, and merge the prefix into the word of the
survivors. -/
def antialiasSpec (foldCase : Str → Str) (q : Str) (c : Chain) : Chain :=
  c.filterMap (fun l =>
    if foldCase (l.pfx ++ l.word) = foldCase q
    then some ⟨l.pfx ++ l.word, [], l.off⟩ else none)

theorem antialiasLoop_spec (fc : Str → Str) (qf : Str) :
    ∀ (u v : Chain), antialiasLoop fc qf u.length (u ++ v)
      = u.filterMap (fun l => if fc (l.pfx ++ l.word) = qf
          then some ⟨l.pfx ++ l.word, [], l.off⟩ else none) ++ v := by
  intro u
  induction u using List.reverseRecOn with
  | nil => intro v; simp [antialiasLoop]
  | append_singleton us l ih =>
    intro v
    have hlen : (us ++ [l]).length = us.length + 1 := by simp
    rw [hlen]
    have hassoc : us ++ [l] ++ v = us ++ l :: v := by simp
    rw [hassoc]
    show antialiasLoop fc qf us.length
        (antialiasAt fc qf (us ++ l :: v) us.length) = _
    by_cases hkeep : fc (l.pfx ++ l.word) = qf
    · by_cases hpfx : l.pfx = []
      · have hkeep' : fc l.word = qf := by simpa [hpfx] using hkeep
        have hat : antialiasAt fc qf (us ++ l :: v) us.length = us ++ l :: v := by
          simp only [antialiasAt]
          rw [getD_append_length]
          simp [hkeep, hkeep', hpfx]
        rw [hat, ih (l :: v)]
        have hl : (⟨l.pfx ++ l.word, [], l.off⟩ : WordArticleLink) = l := by
          cases l with
          | mk w p o => simp only at hpfx; simp [hpfx]
        simp [hkeep, hl]
      · have hat : antialiasAt fc qf (us ++ l :: v) us.length
            = us ++ (⟨l.pfx ++ l.word, [], l.off⟩ : WordArticleLink) :: v := by
          simp only [antialiasAt]
          rw [getD_append_length]
          simp [hkeep, hpfx, set_append_length]
        rw [hat, ih _]
        simp [hkeep]
    · have hat : antialiasAt fc qf (us ++ l :: v) us.length = us ++ v := by
        simp only [antialiasAt]
        rw [getD_append_length]
        simp [hkeep, eraseIdx_append_length]
      rw [hat, ih v]
      simp [hkeep]

theorem antialias_eq_spec (fc : Str → Str) (q : Str) (c : Chain) :
    antialias fc q c = antialiasSpec fc q c := by
  have h := antialiasLoop_spec fc (fc q) c []
  simpa [antialias, antialiasSpec] using h

/-! ## Async prefix/stemmed search (`BtreeWordSearchRequest::run`,
btreeidx.cc:192-324)

The worker loop is modelled sequentially with the cancellation flag
never set (concurrency and cancellation are outside the shallow
embedding; a never-cancelled run is the behaviour the functional
claims quantify over). -/

/-- The forward leaf walk of `run` (btreeidx.cc:236-298): read each
chain, stop when its folded head no longer has `folded` as a prefix,
append the records passing the middle-match and suffix-variation
filters, stop once `maxResults` is reached (possibly overshooting
within a chain), and follow `nextLeaf` when the current leaf is
exhausted. -/
def runWalk (fold : Str → Str) (file : List FNode)
    (allowMiddle : Bool) (msv : Int) (initialFoldedSize maxResults : Nat)
    (folded : Str) :
    Nat → List Chain → Nat → List Str → Except BErr (List Str)
  | 0, _, _, _ => Except.error BErr.fuelOut
  | fuel + 1, chains, nextLeaf, acc =>
    match chains with
    | [] =>
      if nextLeaf ≠ 0 then
        match getNode file nextLeaf with
        | FNode.leaf items2 next2 =>
          runWalk fold file allowMiddle msv initialFoldedSize maxResults folded
            fuel (items2.map (fun e => e.2)) next2 acc
        | FNode.node _ _ => Except.error BErr.corrupted
      else Except.ok acc
    | chain :: rest =>
      let resultFolded := fold ((chain.headD default).word)
      if folded.length ≤ resultFolded.length
          ∧ resultFolded.take folded.length = folded then
        let adds := chain.filterMap (fun cx =>
          if (allowMiddle = true ∨ fold cx.pfx = [])
              ∧ (msv < 0 ∨ (resultFolded.length : Int) - (initialFoldedSize : Int) ≤ msv)
          then some (cx.pfx ++ cx.word) else none)
        let acc2 := acc ++ adds
        if maxResults ≤ acc2.length then Except.ok acc2
        else runWalk fold file allowMiddle msv initialFoldedSize maxResults folded
          fuel rest nextLeaf acc2
      else Except.ok acc

/-- The suffix-chopping loop of `run` (btreeidx.cc:224-307): locate
the chain for the current `folded` target, walk forward, then chop
the last character while the chop budget lasts. -/
def runLoop (fold : Str → Str) (file : List FNode) (root : Nat)
    (allowMiddle : Bool) (msv : Int)
    (initialFoldedSize maxResults walkFuel : Nat) :
    Nat → Str → List Str → Except BErr (List Str)
  | budget, folded, acc =>
    match findFrom fold file root folded (file.length + 1) root with
    | Except.error e => Except.error e
    | Except.ok r =>
      match
        (match r with
         | none => Except.ok acc
         | some h => runWalk fold file allowMiddle msv initialFoldedSize
             maxResults folded walkFuel h.chains h.nextLeaf acc) with
      | Except.error e => Except.error e
      | Except.ok acc2 =>
        match budget with
        | 0 => Except.ok acc2
        | b + 1 =>
          runLoop fold file root allowMiddle msv initialFoldedSize maxResults
            walkFuel b folded.dropLast acc2

/-- `BtreeWordSearchRequest::run` (btreeidx.cc:192-310): fold the
request string, compute the chop budget
`clamp(|folded| - minLength, 0, maxSuffixVariation)` (zero when the
variation is negative), and run the chopping loop. -/
def runRequest (fold : Str → Str) (idx : BuiltIndex) (str : Str)
    (minLength : Nat) (msv : Int) (allowMiddle : Bool)
    (maxResults walkFuel : Nat) : Except BErr (List Str) :=
  let folded := fold str
  let budget : Nat :=
    if 0 ≤ msv then min (folded.length - minLength) msv.toNat else 0
  runLoop fold idx.file idx.rootOffset allowMiddle msv folded.length
    maxResults walkFuel budget folded []

/-- `BtreeDictionary::prefixMatch` (btreeidx.cc:312-316): minLength 0,
maxSuffixVariation -1, middle matches allowed. -/
def prefixMatchRun (fold : Str → Str) (idx : BuiltIndex) (str : Str)
    (maxResults walkFuel : Nat) : Except BErr (List Str) :=
  runRequest fold idx str 0 (-1) true maxResults walkFuel

/-- `BtreeDictionary::stemmedMatch` (btreeidx.cc:318-324): middle
matches disallowed, the unsigned variation cast to `int`. -/
def stemmedMatchRun (fold : Str → Str) (idx : BuiltIndex) (str : Str)
    (minLength msv maxResults walkFuel : Nat) : Except BErr (List Str) :=
  runRequest fold idx str minLength (Int.ofNat msv) false maxResults walkFuel

/-- C9 counterexample: on the index of the single key `[1,2,3]`
(one whole-headword record), the stemmed search for `[1,2]` with
`maxSuffixVariation = 0` returns nothing — the suffix-variation
filter discards the longer word — while the prefix query at the same
(unchopped) target returns the word.  The two are therefore not
identical. -/
theorem stemmedMatch_v0_ne_prefixMatch :
    stemmedMatchRun id (buildIndex [([1, 2, 3], [⟨[1, 2, 3], [], 9⟩])])
        [1, 2] 1 0 10 4 = Except.ok []
    ∧ prefixMatchRun id (buildIndex [([1, 2, 3], [⟨[1, 2, 3], [], 9⟩])])
        [1, 2] 10 4 = Except.ok [[1, 2, 3]]
    ∧ stemmedMatchRun id (buildIndex [([1, 2, 3], [⟨[1, 2, 3], [], 9⟩])])
          [1, 2] 1 0 10 4
        ≠ prefixMatchRun id (buildIndex [([1, 2, 3], [⟨[1, 2, 3], [], 9⟩])])
          [1, 2] 10 4 := by
  have h1 : stemmedMatchRun id (buildIndex [([1, 2, 3], [⟨[1, 2, 3], [], 9⟩])])
      [1, 2] 1 0 10 4 = Except.ok [] := rfl
  have h2 : prefixMatchRun id (buildIndex [([1, 2, 3], [⟨[1, 2, 3], [], 9⟩])])
      [1, 2] 10 4 = Except.ok [[1, 2, 3]] := rfl
  exact ⟨h1, h2, by rw [h1, h2]; simp⟩

/-- C9 (amended): with `maxSuffixVariation = 0` the chop budget is
`clamp(|folded| - minLength, 0, 0) = 0` for every `minLength`, so the
stemmed search performs the single lookup at the unchopped folded
target and its result does not depend on `minLength`. -/
theorem stemmedMatch_v0_minLength_irrelevant (fold : Str → Str)
    (idx : BuiltIndex) (str : Str) (minL minL' maxResults walkFuel : Nat) :
    stemmedMatchRun fold idx str minL 0 maxResults walkFuel
      = stemmedMatchRun fold idx str minL' 0 maxResults walkFuel := by
  unfold stemmedMatchRun runRequest
  simp

/-! ## Builder invariants: file extension, leaf linkage, subtree shape -/

/-- Two nodes agree on everything except possibly a leaf's forward
link (the only field the builder patches in place). -/
def SameCore : FNode → FNode → Prop
  | FNode.leaf its _, FNode.leaf its' _ => its = its'
  | FNode.node cs ps, FNode.node cs' ps' => cs = cs' ∧ ps = ps'
  | _, _ => False

/-- `f2` extends `f1`: same nodes (up to leaf-link patching) on the
common prefix, and possibly more nodes. -/
def Extends (f1 f2 : List FNode) : Prop :=
  f1.length ≤ f2.length ∧
    ∀ i, i < f1.length →
      SameCore (f1.getD i (FNode.node [] [])) (f2.getD i (FNode.node [] []))

theorem sameCore_refl (n : FNode) : SameCore n n := by
  cases n <;> simp [SameCore]

theorem sameCore_trans {a b c : FNode} (h1 : SameCore a b) (h2 : SameCore b c) :
    SameCore a c := by
  cases a <;> cases b <;> cases c <;> simp_all [SameCore]

theorem extends_refl (f : List FNode) : Extends f f :=
  ⟨le_refl _, fun _ _ => sameCore_refl _⟩

theorem extends_trans {f1 f2 f3 : List FNode}
    (h1 : Extends f1 f2) (h2 : Extends f2 f3) : Extends f1 f3 :=
  ⟨le_trans h1.1 h2.1, fun i hi =>
    sameCore_trans (h1.2 i hi) (h2.2 i (lt_of_lt_of_le hi h1.1))⟩

theorem getD_append_lt {α : Type} (u v : List α) (i : Nat) (d : α)
    (h : i < u.length) : (u ++ v).getD i d = u.getD i d := by
  rw [List.getD_eq_getElem?_getD, List.getD_eq_getElem?_getD,
    List.getElem?_append_left h]

theorem extends_append (f : List FNode) (ns : List FNode) :
    Extends f (f ++ ns) := by
  refine ⟨by simp, fun i hi => ?_⟩
  rw [getD_append_lt _ _ _ _ hi]
  exact sameCore_refl _

theorem sameCore_setNext (n : FNode) (t : Nat) : SameCore n (setNext n t) := by
  cases n <;> simp [SameCore, setNext]

theorem patchLink_length (f : List FNode) (a t : Nat) :
    (patchLink f a t).length = f.length := by
  simp [patchLink]

theorem getD_set_ne {α : Type} (l : List α) (j : Nat) (y : α)
    (i : Nat) (d : α) (h : i ≠ j) : (l.set j y).getD i d = l.getD i d := by
  rw [List.getD_eq_getElem?_getD, List.getD_eq_getElem?_getD,
    List.getElem?_set_ne (by omega)]

theorem getD_set_self {α : Type} (l : List α) (j : Nat) (y : α) (d : α)
    (h : j < l.length) : (l.set j y).getD j d = y := by
  rw [List.getD_eq_getElem?_getD, List.getElem?_set_self']
  · simp [List.getElem?_eq_getElem h]

theorem extends_patchLink (f : List FNode) (a t : Nat) :
    Extends f (patchLink f a t) := by
  refine ⟨by rw [patchLink_length], fun i hi => ?_⟩
  unfold patchLink
  by_cases hia : i = a - 1
  · subst hia
    rw [getD_set_self _ _ _ _ hi]
    exact sameCore_setNext _ _
  · rw [getD_set_ne _ _ _ _ _ hia]
    exact sameCore_refl _

/-- Leaf addresses of a file, in file order (1-based). -/
def leafAddrs (file : List FNode) : List Nat :=
  (List.range file.length).filterMap (fun i =>
    match file.getD i (FNode.node [] []) with
    | FNode.leaf _ _ => some (i + 1)
    | FNode.node _ _ => none)

/-- Forward link of the leaf at address `a` (0 when not a leaf). -/
def leafNext (file : List FNode) (a : Nat) : Nat :=
  match getNode file a with
  | FNode.leaf _ n => n
  | FNode.node _ _ => 0

/-- Items of the leaf at address `a` (empty when not a leaf). -/
def leafItems (file : List FNode) (a : Nat) : List Entry :=
  match getNode file a with
  | FNode.leaf its _ => its
  | FNode.node _ _ => []

/-- The addresses `la` form the forward-linked chain of leaves:
consecutive links point to the successor and the last link is 0. -/
def ChainedFrom (file : List FNode) : List Nat → Prop
  | [] => True
  | [a] => leafNext file a = 0
  | a :: b :: rest => leafNext file a = b ∧ ChainedFrom file (b :: rest)

/-- The builder's link-state invariant: the leaves present in the
file are chained in file order and `lll` is the address of the last
leaf (0 when there is none). -/
def LinkInv (file : List FNode) (lll : Nat) : Prop :=
  ChainedFrom file (leafAddrs file) ∧ lll = (leafAddrs file).getLast?.getD 0

/-- Shape of a built subtree rooted at `off`, over the slice of
`count` entries of `all` starting at `start`: exactly the recursion
scheme of `buildBtreeNode`. -/
inductive SubtreeOK (F : Nat) (all : List Entry) (file : List FNode) :
    Nat → Nat → Nat → Prop
  | leaf (off start count next : Nat)
      (hcnt : count ≤ F)
      (hget : getNode file off = FNode.leaf ((all.drop start).take count) next) :
      SubtreeOK F all file off start count
  | node (off start count : Nat) (cs : List Nat) (pivs : List Str)
      (hcnt : F < count)
      (hget : getNode file off = FNode.node cs pivs)
      (hlen : cs.length = F + 1)
      (hpiv : pivs = (List.range F).map
          (fun x => (all.getD (start + count * (x + 1) / (F + 1)) ([], [])).1))
      (hbound : ∀ x, x ≤ F → 1 ≤ cs.getD x 0 ∧ cs.getD x 0 < off)
      (hkids : ∀ x, x < F →
        SubtreeOK F all file (cs.getD x 0)
          (start + count * x / (F + 1))
          (count * (x + 1) / (F + 1) - count * x / (F + 1)))
      (hlast : SubtreeOK F all file (cs.getD F 0)
          (start + count * F / (F + 1)) (count - count * F / (F + 1))) :
      SubtreeOK F all file off start count

/-- In-order items of the subtree rooted at `addr` (fuel-bounded;
children of built nodes have strictly smaller addresses). -/
def subtreeItems (file : List FNode) : Nat → Nat → List Entry
  | 0, _ => []
  | fuel + 1, addr =>
    match getNode file addr with
    | FNode.leaf items _ => items
    | FNode.node cs _ => (cs.map (subtreeItems file fuel)).flatten

/-- Follow leaf forward links from `addr`, collecting each visited
leaf's items; the boolean records clean termination on link 0. -/
def walkLeaves (file : List FNode) : Nat → Nat → List (List Entry) × Bool
  | 0, _ => ([], false)
  | fuel + 1, addr =>
    if addr = 0 then ([], true)
    else
      match getNode file addr with
      | FNode.leaf items next =>
        let r := walkLeaves file fuel next
        (items :: r.1, r.2)
      | FNode.node _ _ => ([], false)

theorem getD_oor {α : Type} (l : List α) (i : Nat) (d : α)
    (h : ¬ i < l.length) : l.getD i d = d := by
  rw [List.getD_eq_getElem?_getD, List.getElem?_eq_none (by omega)]
  rfl

theorem getNode_extends_leaf {f1 f2 : List FNode} (hx : Extends f1 f2)
    {a : Nat} {its : List Entry} {nx : Nat}
    (h : getNode f1 a = FNode.leaf its nx) :
    ∃ nx2, getNode f2 a = FNode.leaf its nx2 := by
  have hrange : a - 1 < f1.length := by
    by_contra hge
    rw [getNode, getD_oor _ _ _ hge] at h
    cases h
  have hsc := hx.2 (a - 1) hrange
  rw [getNode] at h
  rw [h] at hsc
  unfold getNode
  cases hg : f2.getD (a - 1) (FNode.node [] []) with
  | leaf its2 nx2 =>
    rw [hg] at hsc
    simp only [SameCore] at hsc
    exact ⟨nx2, by rw [hsc]⟩
  | node cs ps =>
    rw [hg] at hsc
    simp [SameCore] at hsc

theorem getNode_extends_node {f1 f2 : List FNode} (hx : Extends f1 f2)
    {a : Nat} {cs : List Nat} {ps : List Str}
    (h : getNode f1 a = FNode.node cs ps) (hcs : cs ≠ []) :
    getNode f2 a = FNode.node cs ps := by
  have hrange : a - 1 < f1.length := by
    by_contra hge
    rw [getNode, getD_oor _ _ _ hge] at h
    have : cs = [] := by cases h.symm; rfl
    exact hcs this
  have hsc := hx.2 (a - 1) hrange
  rw [getNode] at h
  rw [h] at hsc
  unfold getNode
  cases hg : f2.getD (a - 1) (FNode.node [] []) with
  | leaf its2 nx2 => rw [hg] at hsc; simp [SameCore] at hsc
  | node cs2 ps2 =>
    rw [hg] at hsc
    simp only [SameCore] at hsc
    rw [hsc.1, hsc.2]

theorem subtreeOK_mono {F : Nat} {all : List Entry}
    {f1 f2 : List FNode} (hx : Extends f1 f2) :
    ∀ {off start count}, SubtreeOK F all f1 off start count →
      SubtreeOK F all f2 off start count := by
  intro off start count h
  induction h with
  | leaf off start count next hcnt hget =>
    rcases getNode_extends_leaf hx hget with ⟨nx2, hget2⟩
    exact SubtreeOK.leaf off start count nx2 hcnt hget2
  | node off start count cs pivs hcnt hget hlen hpiv hbound hkids hlast ihkids ihlast =>
    have hcs : cs ≠ [] := by
      intro habs
      rw [habs] at hlen
      simp at hlen
    exact SubtreeOK.node off start count cs pivs hcnt
      (getNode_extends_node hx hget hcs) hlen hpiv hbound
      (fun x hxF => ihkids x hxF) ihlast

/-! ### Leaf address bookkeeping under append and patch -/

/-- The classifier used by `leafAddrs`. -/
def leafAddrOf (file : List FNode) (i : Nat) : Option Nat :=
  match file.getD i (FNode.node [] []) with
  | FNode.leaf _ _ => some (i + 1)
  | FNode.node _ _ => none

theorem leafAddrs_def (file : List FNode) :
    leafAddrs file = (List.range file.length).filterMap (leafAddrOf file) := rfl

theorem leafAddrOf_append_lt (file ns : List FNode) (i : Nat)
    (h : i < file.length) : leafAddrOf (file ++ ns) i = leafAddrOf file i := by
  unfold leafAddrOf
  rw [getD_append_lt _ _ _ _ h]

theorem leafAddrs_append_leaf (file : List FNode) (its : List Entry) (nx : Nat) :
    leafAddrs (file ++ [FNode.leaf its nx]) = leafAddrs file ++ [file.length + 1] := by
  rw [leafAddrs_def, leafAddrs_def]
  have hlen : (file ++ [FNode.leaf its nx]).length = file.length + 1 := by simp
  rw [hlen, List.range_succ, List.filterMap_append]
  congr 1
  · exact List.filterMap_congr (fun i hi =>
      leafAddrOf_append_lt file _ i (List.mem_range.mp hi))
  · simp [leafAddrOf, List.getD_eq_getElem?_getD]

theorem leafAddrs_append_node (file : List FNode) (cs : List Nat) (ps : List Str) :
    leafAddrs (file ++ [FNode.node cs ps]) = leafAddrs file := by
  rw [leafAddrs_def, leafAddrs_def]
  have hlen : (file ++ [FNode.node cs ps]).length = file.length + 1 := by simp
  rw [hlen, List.range_succ, List.filterMap_append]
  have h2 : List.filterMap (leafAddrOf (file ++ [FNode.node cs ps])) [file.length] = [] := by
    simp [leafAddrOf, List.getD_eq_getElem?_getD]
  rw [h2, List.append_nil]
  exact List.filterMap_congr (fun i hi =>
    leafAddrOf_append_lt file _ i (List.mem_range.mp hi))

theorem leafAddrs_patchLink (file : List FNode) (a t : Nat) :
    leafAddrs (patchLink file a t) = leafAddrs file := by
  rw [leafAddrs_def, leafAddrs_def, patchLink_length]
  apply List.filterMap_congr
  intro i hi
  unfold leafAddrOf patchLink
  by_cases hia : i = a - 1
  · subst hia
    rw [getD_set_self _ _ _ _ (List.mem_range.mp hi)]
    cases file.getD (a - 1) (FNode.node [] []) <;> simp [setNext]
  · rw [getD_set_ne _ _ _ _ _ hia]

theorem mem_leafAddrs {file : List FNode} {a : Nat} :
    a ∈ leafAddrs file ↔
      (1 ≤ a ∧ a - 1 < file.length ∧
        ∃ its nx, file.getD (a - 1) (FNode.node [] []) = FNode.leaf its nx) := by
  rw [leafAddrs_def, List.mem_filterMap]
  constructor
  · rintro ⟨i, hi, hoi⟩
    unfold leafAddrOf at hoi
    cases hg : file.getD i (FNode.node [] []) with
    | leaf its nx =>
      rw [hg] at hoi
      simp only [Option.some.injEq] at hoi
      subst hoi
      refine ⟨by omega, by simpa using List.mem_range.mp hi, its, nx, by simpa using hg⟩
    | node cs ps => rw [hg] at hoi; cases hoi
  · rintro ⟨h1, h2, its, nx, hg⟩
    refine ⟨a - 1, List.mem_range.mpr h2, ?_⟩
    unfold leafAddrOf
    rw [hg]
    simp
    omega

theorem leafAddrs_nodup (file : List FNode) : (leafAddrs file).Nodup := by
  rw [leafAddrs_def]
  apply (List.nodup_range _).filterMap
  intro i j b hi hj
  unfold leafAddrOf at hi hj
  cases hgi : file.getD i (FNode.node [] []) with
  | leaf its nx =>
    rw [hgi] at hi
    simp only [Option.mem_def, Option.some.injEq] at hi
    cases hgj : file.getD j (FNode.node [] []) with
    | leaf its2 nx2 =>
      rw [hgj] at hj
      simp only [Option.mem_def, Option.some.injEq] at hj
      omega
    | node cs ps => rw [hgj] at hj; cases hj
  | node cs ps => rw [hgi] at hi; cases hi

theorem leafNext_append (file ns : List FNode) (a : Nat)
    (h : a - 1 < file.length) : leafNext (file ++ ns) a = leafNext file a := by
  unfold leafNext getNode
  rw [getD_append_lt _ _ _ _ h]

theorem leafItems_append (file ns : List FNode) (a : Nat)
    (h : a - 1 < file.length) : leafItems (file ++ ns) a = leafItems file a := by
  unfold leafItems getNode
  rw [getD_append_lt _ _ _ _ h]

theorem leafNext_patchLink_ne (file : List FNode) (m t a : Nat)
    (h : a - 1 ≠ m - 1) : leafNext (patchLink file m t) a = leafNext file a := by
  unfold leafNext getNode patchLink
  rw [getD_set_ne _ _ _ _ _ h]

theorem leafItems_patchLink (file : List FNode) (m t a : Nat) :
    leafItems (patchLink file m t) a = leafItems file a := by
  unfold leafItems getNode patchLink
  by_cases hia : a - 1 = m - 1
  · rw [hia]
    by_cases hm : m - 1 < file.length
    · rw [getD_set_self _ _ _ _ hm]
      cases file.getD (m - 1) (FNode.node [] []) <;> simp [setNext]
    · rw [List.set_eq_of_length_le (by omega)]
  · rw [getD_set_ne _ _ _ _ _ hia]

theorem leafNext_patchLink_self (file : List FNode) (m t : Nat)
    (hm : m - 1 < file.length)
    (hleaf : ∃ its nx, file.getD (m - 1) (FNode.node [] []) = FNode.leaf its nx) :
    leafNext (patchLink file m t) m = t := by
  unfold leafNext getNode patchLink
  rw [getD_set_self _ _ _ _ hm]
  rcases hleaf with ⟨its, nx, hg⟩
  rw [hg]
  simp [setNext]

/-! ### Chained leaves -/

theorem chainedFrom_congr {file file2 : List FNode} :
    ∀ {la : List Nat}, (∀ a ∈ la, leafNext file2 a = leafNext file a) →
      ChainedFrom file la → ChainedFrom file2 la := by
  intro la
  induction la with
  | nil => intro _ _; trivial
  | cons a rest ih =>
    intro hagree hch
    cases rest with
    | nil =>
      simp only [ChainedFrom] at hch ⊢
      rw [hagree a (List.mem_cons_self _ _)]
      exact hch
    | cons b rest' =>
      simp only [ChainedFrom] at hch ⊢
      refine ⟨?_, ih (fun x hx => hagree x (List.mem_cons_of_mem _ hx)) hch.2⟩
      rw [hagree a (List.mem_cons_self _ _)]
      exact hch.1

theorem chainedFrom_snoc {file file2 : List FNode} {m b : Nat} :
    ∀ {la : List Nat}, ChainedFrom file la → la.getLast? = some m →
      la.Nodup →
      (∀ a ∈ la, a ≠ m → leafNext file2 a = leafNext file a) →
      leafNext file2 m = b → leafNext file2 b = 0 →
      ChainedFrom file2 (la ++ [b]) := by
  intro la
  induction la with
  | nil => intro _ hl; cases hl
  | cons a rest ih =>
    intro hch hlast hnd hagree hm hb
    cases rest with
    | nil =>
      have ham : a = m := by
        simp only [List.getLast?_singleton, Option.some.injEq] at hlast
        exact hlast
      subst ham
      simp only [List.cons_append, List.nil_append, ChainedFrom]
      exact ⟨hm, hb⟩
    | cons c rest' =>
      simp only [ChainedFrom] at hch
      have hlast' : (c :: rest').getLast? = some m := by
        rw [List.getLast?_cons_cons] at hlast
        exact hlast
      have hmem : m ∈ c :: rest' := by
        have := List.getLast?_eq_getLast (c :: rest') (by simp)
        rw [hlast'] at this
        have hm' : m = (c :: rest').getLast (by simp) := by
          simpa using this
        rw [hm']
        exact List.getLast_mem _
      have hanem : a ≠ m := by
        intro habs
        subst habs
        exact (List.nodup_cons.mp hnd).1 hmem
      have hch2 : ChainedFrom file2 ((c :: rest') ++ [b]) :=
        ih hch.2 hlast' (List.nodup_cons.mp hnd).2
          (fun x hx hxm => hagree x (List.mem_cons_of_mem _ hx) hxm) hm hb
      simp only [List.cons_append, ChainedFrom] at hch2 ⊢
      constructor
      · rw [hagree a (List.mem_cons_self _ _) hanem]
        exact hch.1
      · exact hch2

/-! ### The builder's output contract -/

theorem leafItems_extends {f1 f2 : List FNode} (hx : Extends f1 f2) (a : Nat)
    (h : a - 1 < f1.length) : leafItems f2 a = leafItems f1 a := by
  have hsc := hx.2 (a - 1) h
  unfold leafItems getNode
  cases hg1 : f1.getD (a - 1) (FNode.node [] []) with
  | leaf its nx =>
    rw [hg1] at hsc
    cases hg2 : f2.getD (a - 1) (FNode.node [] []) with
    | leaf its2 nx2 => rw [hg2] at hsc; simp only [SameCore] at hsc; rw [hsc]
    | node cs ps => rw [hg2] at hsc; simp [SameCore] at hsc
  | node cs ps =>
    rw [hg1] at hsc
    cases hg2 : f2.getD (a - 1) (FNode.node [] []) with
    | leaf its2 nx2 => rw [hg2] at hsc; simp [SameCore] at hsc
    | node cs2 ps2 => rfl

theorem mem_leafAddrs_lt {file : List FNode} {a : Nat}
    (h : a ∈ leafAddrs file) : a - 1 < file.length :=
  (mem_leafAddrs.mp h).2.1

/-- Everything `buildBtreeNode` guarantees about one call, packaged
for the induction: the file grows, the returned offset addresses the
newly written root whose subtree has the prescribed shape, the new
leaves extend the leaf list in order carrying exactly the slice of
entries, and the leaf-link invariant is preserved. -/
structure BuildOut (F : Nat) (all : List Entry) (start count : Nat)
    (file : List FNode) (lll : Nat) (r : List FNode × Nat × Nat) : Prop where
  ext : Extends file r.1
  grow : file.length < r.1.length
  offEq : r.2.1 = r.1.length
  shape : SubtreeOK F all r.1 r.2.1 start count
  leaves : ∃ newA : List Nat,
    leafAddrs r.1 = leafAddrs file ++ newA ∧ newA ≠ [] ∧
    newA.headD 0 = file.length + 1 ∧
    (newA.map (leafItems r.1)).flatten = (all.drop start).take count
  link : LinkInv file lll → LinkInv r.1 r.2.2

theorem emitLeaf_out (F : Nat) (all : List Entry) (start count : Nat)
    (file : List FNode) (lll : Nat) (hcnt : count ≤ F) :
    BuildOut F all start count file lll
      (emitLeaf ((all.drop start).take count) file lll) := by
  set items := (all.drop start).take count with hitems
  set offset := file.length + 1 with hoffset
  set file1 := file ++ [FNode.leaf items 0] with hfile1
  have hlen1 : file1.length = file.length + 1 := by simp [hfile1]
  have hget1 : getNode file1 offset = FNode.leaf items 0 := by
    unfold getNode
    rw [hoffset]
    simp only [Nat.add_sub_cancel]
    have : file ++ [FNode.leaf items 0] = file ++ FNode.leaf items 0 :: [] := rfl
    rw [hfile1, this, getD_append_length]
  set file2 := if lll ≠ 0 then patchLink file1 lll offset else file1 with hfile2
  have hx12 : Extends file1 file2 := by
    rw [hfile2]
    by_cases h : lll ≠ 0
    · rw [if_pos h]; exact extends_patchLink _ _ _
    · rw [if_neg h]; exact extends_refl _
  have hlen2 : file2.length = file.length + 1 := by
    rw [hfile2]
    by_cases h : lll ≠ 0
    · rw [if_pos h, patchLink_length, hlen1]
    · rw [if_neg h, hlen1]
  have hresult : emitLeaf items file lll = (file2, offset, offset) := by
    rw [hfile2, hoffset, hfile1]
    rfl
  have hx1 : Extends file file1 := extends_append _ _
  have hx : Extends file file2 := extends_trans hx1 hx12
  have hla1 : leafAddrs file1 = leafAddrs file ++ [offset] := by
    rw [hfile1, leafAddrs_append_leaf, hoffset]
  have hla2 : leafAddrs file2 = leafAddrs file ++ [offset] := by
    rw [hfile2]
    by_cases h : lll ≠ 0
    · rw [if_pos h, leafAddrs_patchLink, hla1]
    · rw [if_neg h, hla1]
  have hitems2 : leafItems file2 offset = items := by
    have h1 : leafItems file1 offset = items := by
      unfold leafItems
      rw [hget1]
    rw [hfile2]
    by_cases h : lll ≠ 0
    · rw [if_pos h, leafItems_patchLink, h1]
    · rw [if_neg h, h1]
  rw [hresult]
  refine ⟨hx, by show file.length < file2.length; omega,
    by show offset = file2.length; omega, ?_, ?_, ?_⟩
  · rcases getNode_extends_leaf hx12 hget1 with ⟨nx2, hget2⟩
    exact SubtreeOK.leaf offset start count nx2 hcnt hget2
  · exact ⟨[offset], hla2, by simp, by simp, by simp [hitems2, hitems]⟩
  · -- link invariant
    rintro ⟨hch, hlll⟩
    cases hlast : (leafAddrs file).getLast? with
    | none =>
      have hlaf : leafAddrs file = [] := by
        cases hemp : leafAddrs file with
        | nil => rfl
        | cons a rest => rw [hemp] at hlast; simp at hlast
      have hlll0 : lll = 0 := by rw [hlast] at hlll; simpa using hlll
      have hfile2' : file2 = file1 := by rw [hfile2, if_neg (by omega)]
      constructor
      · rw [hfile2', hla1, hlaf]
        show ChainedFrom file1 [offset]
        show leafNext file1 offset = 0
        unfold leafNext
        rw [hget1]
      · rw [hfile2', hla1, hlaf]
        simp
    | some m =>
      have hmmem : m ∈ leafAddrs file := by
        rcases List.mem_getLast?_eq_getLast (Option.mem_def.mpr hlast) with ⟨hne, hmg⟩
        rw [hmg]
        exact List.getLast_mem hne
      have hm1 : 1 ≤ m := (mem_leafAddrs.mp hmmem).1
      have hmlt : m - 1 < file.length := (mem_leafAddrs.mp hmmem).2.1
      rcases (mem_leafAddrs.mp hmmem).2.2 with ⟨mits, mnx, hmleaf⟩
      have hllm : lll = m := by rw [hlast] at hlll; simpa using hlll
      have hlllne : lll ≠ 0 := by omega
      have hfile2' : file2 = patchLink file1 lll offset := by
        rw [hfile2, if_pos hlllne]
      have hch2 : ChainedFrom file2 (leafAddrs file ++ [offset]) := by
        apply @chainedFrom_snoc file file2 m offset (leafAddrs file) hch hlast
          (leafAddrs_nodup file)
        · intro a ha hane
          have halt : a - 1 < file.length := mem_leafAddrs_lt ha
          have ha1 : 1 ≤ a := (mem_leafAddrs.mp ha).1
          rw [hfile2', hllm]
          rw [leafNext_patchLink_ne _ _ _ _ (by omega)]
          exact leafNext_append _ _ _ halt
        · rw [hfile2', hllm]
          apply leafNext_patchLink_self
          · omega
          · refine ⟨mits, mnx, ?_⟩
            rw [hfile1]
            rw [getD_append_lt _ _ _ _ (by omega)]
            exact hmleaf
        · rw [hfile2', hllm]
          rw [leafNext_patchLink_ne _ _ _ _ (by omega)]
          unfold leafNext
          rw [hget1]
      constructor
      · rw [hla2]; exact hch2
      · rw [hla2]
        simp

theorem linkInv_append_node {file : List FNode} {lll : Nat}
    (cs : List Nat) (ps : List Str) (h : LinkInv file lll) :
    LinkInv (file ++ [FNode.node cs ps]) lll := by
  rcases h with ⟨hch, hlll⟩
  constructor
  · rw [leafAddrs_append_node]
    apply @chainedFrom_congr file (file ++ [FNode.node cs ps]) (leafAddrs file)
    · intro a ha
      exact leafNext_append _ _ _ (mem_leafAddrs_lt ha)
    · exact hch
  · rw [leafAddrs_append_node]
    exact hlll

/-- Contract of the child-building loop for an index list `xs`. -/
structure KidsOut (F : Nat) (all : List Entry) (start count : Nat)
    (xs : List Nat) (file : List FNode) (lll : Nat)
    (r : List FNode × List Nat × List Str × Nat) : Prop where
  ext : Extends file r.1
  offsLen : r.2.1.length = xs.length
  pivsEq : r.2.2.1 = xs.map
    (fun x => (all.getD (start + count * (x + 1) / (F + 1)) ([], [])).1)
  offsBound : ∀ idx, idx < xs.length →
    1 ≤ r.2.1.getD idx 0 ∧ r.2.1.getD idx 0 ≤ r.1.length
  shapes : ∀ idx, idx < xs.length →
    SubtreeOK F all r.1 (r.2.1.getD idx 0)
      (start + count * (xs.getD idx 0) / (F + 1))
      (count * (xs.getD idx 0 + 1) / (F + 1) - count * (xs.getD idx 0) / (F + 1))
  leaves : ∃ newA : List Nat,
    leafAddrs r.1 = leafAddrs file ++ newA ∧
    (newA.map (leafItems r.1)).flatten
      = xs.flatMap (fun x => (all.drop (start + count * x / (F + 1))).take
          (count * (x + 1) / (F + 1) - count * x / (F + 1))) ∧
    (xs ≠ [] → newA ≠ [] ∧ newA.headD 0 = file.length + 1)
  link : LinkInv file lll → LinkInv r.1 r.2.2.2

theorem buildKids_out (F : Nat) (all : List Entry) (start count : Nat)
    (P : Nat → Prop)
    (bc : Nat → Nat → List FNode → Nat → List FNode × Nat × Nat)
    (hbc : ∀ s c fl ll, P c → BuildOut F all s c fl ll (bc s c fl ll)) :
    ∀ (xs : List Nat) (file : List FNode) (lll : Nat),
      (∀ x ∈ xs, P (count * (x + 1) / (F + 1) - count * x / (F + 1))) →
      KidsOut F all start count xs file lll
        (buildKids bc all (F + 1) start count xs file lll) := by
  intro xs
  induction xs with
  | nil =>
    intro file lll _
    rw [show buildKids bc all (F + 1) start count ([] : List Nat) file lll
        = (file, [], [], lll) from rfl]
    refine ⟨extends_refl _, rfl, rfl, ?_, ?_, ⟨[], by simp, by simp, by simp⟩, id⟩
    · intro idx hidx; cases hidx
    · intro idx hidx; cases hidx
  | cons x xs ih =>
    intro file lll hP
    have hPx := hP x (List.mem_cons_self _ _)
    have h1 : BuildOut F all (start + count * x / (F + 1))
        (count * (x + 1) / (F + 1) - count * x / (F + 1)) file lll
        (bc (start + count * x / (F + 1))
          (count * (x + 1) / (F + 1) - count * x / (F + 1)) file lll) :=
      hbc _ _ _ _ hPx
    set r1 := bc (start + count * x / (F + 1))
      (count * (x + 1) / (F + 1) - count * x / (F + 1)) file lll with hr1
    have h2 := ih r1.1 r1.2.2 (fun y hy => hP y (List.mem_cons_of_mem _ hy))
    set r2 := buildKids bc all (F + 1) start count xs r1.1 r1.2.2 with hr2
    have hres : buildKids bc all (F + 1) start count (x :: xs) file lll
        = (r2.1, r1.2.1 :: r2.2.1,
           (all.getD (start + count * (x + 1) / (F + 1)) ([], [])).1 :: r2.2.2.1,
           r2.2.2.2) := by
      rw [buildKids]
    rw [hres]
    have hx12 : Extends r1.1 r2.1 := h2.ext
    refine ⟨extends_trans h1.ext hx12, ?_, ?_, ?_, ?_, ?_, ?_⟩
    · simpa using h2.offsLen
    · simpa using h2.pivsEq
    · intro idx hidx
      cases idx with
      | zero =>
        simp only [List.getD_cons_zero]
        have := h1.offEq
        have := h1.grow
        have := hx12.1
        constructor
        · omega
        · omega
      | succ idx' =>
        simp only [List.getD_cons_succ]
        exact h2.offsBound idx' (by simpa using hidx)
    · intro idx hidx
      cases idx with
      | zero =>
        simp only [List.getD_cons_zero]
        exact subtreeOK_mono hx12 h1.shape
      | succ idx' =>
        simp only [List.getD_cons_succ]
        exact h2.shapes idx' (by simpa using hidx)
    · rcases h1.leaves with ⟨n1, hn1, hn1ne, hn1hd, hn1items⟩
      rcases h2.leaves with ⟨n2, hn2, hn2items, _⟩
      refine ⟨n1 ++ n2, ?_, ?_, ?_⟩
      · rw [hn2, hn1, List.append_assoc]
      · have hstable : n1.map (leafItems r2.1) = n1.map (leafItems r1.1) := by
          apply List.map_congr_left
          intro a ha
          have hamem : a ∈ leafAddrs r1.1 := by rw [hn1]; exact List.mem_append_right _ ha
          exact leafItems_extends hx12 a (mem_leafAddrs_lt hamem)
        rw [List.map_append, List.flatten_append, hstable, hn1items, hn2items]
        simp [List.flatMap_cons]
      · intro _
        constructor
        · simp [hn1ne]
        · cases n1 with
          | nil => exact absurd rfl hn1ne
          | cons a n1' => simpa using hn1hd
    · intro hinv
      exact h2.link (h1.link hinv)

theorem getD_range (n i : Nat) (h : i < n) : (List.range n).getD i 0 = i := by
  rw [List.getD_eq_getElem?_getD, List.getElem?_range h]
  rfl

theorem flatMap_slices (all : List Entry) (start c fp1 : Nat) :
    ∀ k, (List.range k).flatMap
        (fun x => (all.drop (start + c * x / fp1)).take (c * (x + 1) / fp1 - c * x / fp1))
      = (all.drop start).take (c * k / fp1) := by
  intro k
  induction k with
  | zero => simp
  | succ k ih =>
    rw [List.range_succ, List.flatMap_append, ih]
    simp only [List.flatMap_cons, List.flatMap_nil, List.append_nil]
    have hmono : c * k / fp1 ≤ c * (k + 1) / fp1 :=
      Nat.div_le_div_right (Nat.mul_le_mul_left c (by omega))
    have hsum : c * k / fp1 + (c * (k + 1) / fp1 - c * k / fp1)
        = c * (k + 1) / fp1 := by omega
    rw [← hsum, List.take_add]
    congr 1
    rw [List.drop_drop]
    congr 1
    omega

/-- The master builder theorem: with fuel at least `count` (or a leaf
directly), `buildBtreeNode` fulfils its whole output contract. -/
theorem buildNode_out (F : Nat) (hF : 1 ≤ F) (all : List Entry) :
    ∀ (fuel count start : Nat) (file : List FNode) (lll : Nat),
      (count ≤ F ∨ count ≤ fuel) →
      BuildOut F all start count file lll
        (buildNode F all fuel start count file lll) := by
  intro fuel
  induction fuel with
  | zero =>
    intro count start file lll hc
    have hcF : count ≤ F := by
      rcases hc with h | h
      · exact h
      · omega
    have hunfold : buildNode F all 0 start count file lll
        = emitLeaf ((all.drop start).take count) file lll := by
      rw [buildNode, if_pos hcF]
    rw [hunfold]
    exact emitLeaf_out F all start count file lll hcF
  | succ f ih =>
    intro count start file lll hc
    by_cases hcF : count ≤ F
    · have hunfold : buildNode F all (f + 1) start count file lll
          = emitLeaf ((all.drop start).take count) file lll := by
        rw [buildNode, if_pos hcF]
      rw [hunfold]
      exact emitLeaf_out F all start count file lll hcF
    · have hcount : count ≤ f + 1 := by
        rcases hc with h | h
        · omega
        · exact h
      have hcF' : F < count := by omega
      have hcpos : 0 < count := by omega
      -- child sizes fit in the remaining fuel
      have hsizes : ∀ x ∈ List.range F,
          (fun c => c ≤ F ∨ c ≤ f)
            (count * (x + 1) / (F + 1) - count * x / (F + 1)) := by
        intro x hx
        have hxF : x < F := List.mem_range.mp hx
        have hcur : count * (x + 1) / (F + 1) < count := by
          rw [Nat.div_lt_iff_lt_mul (by omega)]
          have : count * (x + 1) < count * (F + 1) :=
            (Nat.mul_lt_mul_left hcpos).mpr (by omega)
          omega
        right
        have hsub : count * (x + 1) / (F + 1) - count * x / (F + 1)
            ≤ count * (x + 1) / (F + 1) := Nat.sub_le _ _
        omega
      have hkids := buildKids_out F all start count (fun c => c ≤ F ∨ c ≤ f)
        (fun s c fl ll => buildNode F all f s c fl ll)
        (fun s c fl ll h => ih c s fl ll h) (List.range F) file lll hsizes
      set r := buildKids (fun s c fl ll => buildNode F all f s c fl ll)
        all (F + 1) start count (List.range F) file lll with hr
      set prevLast := count * F / (F + 1) with hprevLast
      have hprev1 : 1 ≤ prevLast := by
        rw [hprevLast, Nat.le_div_iff_mul_le (by omega)]
        have : (F + 1) * 1 ≤ count * F := by
          have h1 : F + 1 ≤ count := by omega
          have h2 : count * 1 ≤ count * F := Nat.mul_le_mul_left count hF
          omega
        omega
      have hprevle : prevLast ≤ count := by
        rw [hprevLast]
        calc count * F / (F + 1) ≤ count * (F + 1) / (F + 1) :=
              Nat.div_le_div_right (Nat.mul_le_mul_left count (by omega))
          _ = count := Nat.mul_div_cancel count (by omega)
      have h2 := ih (count - prevLast) (start + prevLast) r.1 r.2.2.2
        (Or.inr (by omega))
      set r2 := buildNode F all f (start + prevLast) (count - prevLast) r.1 r.2.2.2
        with hr2
      have hunfold : buildNode F all (f + 1) start count file lll
          = (r2.1 ++ [FNode.node (r.2.1 ++ [r2.2.1]) r.2.2.1],
             r2.1.length + 1, r2.2.2) := by
        rw [buildNode, if_neg hcF]
      rw [hunfold]
      set fin := r2.1 ++ [FNode.node (r.2.1 ++ [r2.2.1]) r.2.2.1] with hfin
      have hfinlen : fin.length = r2.1.length + 1 := by simp [hfin]
      have hxr2fin : Extends r2.1 fin := extends_append _ _
      have hxrfin : Extends r.1 fin := extends_trans h2.ext hxr2fin
      have hoffs_len : r.2.1.length = F := by
        have := hkids.offsLen
        simpa using this
      have hgetfin : getNode fin (r2.1.length + 1)
          = FNode.node (r.2.1 ++ [r2.2.1]) r.2.2.1 := by
        unfold getNode
        rw [hfin]
        simp only [Nat.add_sub_cancel]
        have : r2.1 ++ [FNode.node (r.2.1 ++ [r2.2.1]) r.2.2.1]
            = r2.1 ++ FNode.node (r.2.1 ++ [r2.2.1]) r.2.2.1 :: [] := rfl
        rw [this, getD_append_length]
      refine ⟨extends_trans hkids.ext hxrfin, ?_, ?_, ?_, ?_, ?_⟩
      · -- grow
        show file.length < fin.length
        have h1 := hkids.ext.1
        have h3 := h2.grow
        omega
      · -- offEq
        show r2.1.length + 1 = fin.length
        omega
      · -- shape
        show SubtreeOK F all fin (r2.1.length + 1) start count
        refine SubtreeOK.node _ _ _ (r.2.1 ++ [r2.2.1]) r.2.2.1 hcF' hgetfin
          (by simp [hoffs_len]) (by simpa using hkids.pivsEq) ?_ ?_ ?_
        · intro x hxF
          by_cases hlt : x < F
          · rw [getD_append_lt _ _ _ _ (by omega)]
            have hb := hkids.offsBound x (by simpa using hlt)
            have := h2.ext.1
            omega
          · have hxeq : x = F := by omega
            subst hxeq
            rw [show x = r.2.1.length from by omega]
            rw [show r.2.1 ++ [r2.2.1] = r.2.1 ++ r2.2.1 :: [] from rfl,
              getD_append_length]
            have := h2.offEq
            have := h2.grow
            omega
        · intro x hxF
          rw [getD_append_lt _ _ _ _ (by omega)]
          have hs := hkids.shapes x (by simpa using hxF)
          rw [getD_range F x hxF] at hs
          exact subtreeOK_mono hxrfin hs
        · rw [show F = r.2.1.length from hoffs_len.symm]
          rw [show r.2.1 ++ [r2.2.1] = r.2.1 ++ r2.2.1 :: [] from rfl,
            getD_append_length]
          rw [hoffs_len]
          have hsh := h2.shape
          rw [h2.offEq] at hsh
          rw [h2.offEq]
          exact subtreeOK_mono hxr2fin hsh
      · -- leaves
        rcases hkids.leaves with ⟨nk, hnk, hnkitems, hnkne⟩
        rcases h2.leaves with ⟨n2, hn2, hn2ne, hn2hd, hn2items⟩
        have hrangene : List.range F ≠ [] := by
          intro habs
          rw [List.range_eq_nil] at habs
          omega
        rcases hnkne hrangene with ⟨hnkne', hnkhd⟩
        refine ⟨nk ++ n2, ?_, ?_, ?_, ?_⟩
        · rw [hfin, leafAddrs_append_node, hn2, hnk, List.append_assoc]
        · simp [hnkne']
        · cases nk with
          | nil => exact absurd rfl hnkne'
          | cons a nk' => simpa using hnkhd
        · have hstable1 : nk.map (leafItems fin) = nk.map (leafItems r.1) := by
            apply List.map_congr_left
            intro a ha
            have hamem : a ∈ leafAddrs r.1 := by
              rw [hnk]; exact List.mem_append_right _ ha
            exact leafItems_extends hxrfin a (mem_leafAddrs_lt hamem)
          have hstable2 : n2.map (leafItems fin) = n2.map (leafItems r2.1) := by
            apply List.map_congr_left
            intro a ha
            have hamem : a ∈ leafAddrs r2.1 := by
              rw [hn2]; exact List.mem_append_right _ ha
            exact leafItems_extends hxr2fin a (mem_leafAddrs_lt hamem)
          rw [List.map_append, List.flatten_append, hstable1, hstable2,
            hnkitems, hn2items]
          rw [flatMap_slices]
          have hsum : prevLast + (count - prevLast) = count := by omega
          have htadd := (List.take_add (all.drop start) prevLast (count - prevLast)).symm
          rw [hsum] at htadd
          rw [← hprevLast, ← htadd]
          congr 1
          rw [List.drop_drop]
      · -- link
        intro hinv
        have hl1 := hkids.link hinv
        have hl2 := h2.link hl1
        rw [hfin]
        exact linkInv_append_node _ _ hl2

theorem subtreeOK_items {F : Nat} {all : List Entry} {file : List FNode} :
    ∀ {off start count}, SubtreeOK F all file off start count →
      ∀ fuel, off < fuel →
        subtreeItems file fuel off = (all.drop start).take count := by
  intro off start count h
  induction h with
  | leaf off start count next hcnt hget =>
    intro fuel hfuel
    cases fuel with
    | zero => omega
    | succ g =>
      show subtreeItems file (g + 1) off = _
      unfold subtreeItems
      rw [hget]
  | node off start count cs pivs hcnt hget hlen hpiv hbound hkids hlast ihkids ihlast =>
    intro fuel hfuel
    cases fuel with
    | zero => omega
    | succ g =>
      show subtreeItems file (g + 1) off = _
      unfold subtreeItems
      rw [hget]
      show (cs.map (subtreeItems file g)).flatten = _
      have hmapeq : cs.map (subtreeItems file g)
          = (List.range (F + 1)).map (fun x =>
              if x < F
              then (all.drop (start + count * x / (F + 1))).take
                  (count * (x + 1) / (F + 1) - count * x / (F + 1))
              else (all.drop (start + count * F / (F + 1))).take
                  (count - count * F / (F + 1))) := by
        apply List.ext_getElem
        · simp [hlen]
        · intro i h1 h2
          have hics : i < cs.length := by
            have h1' := h1
            rw [List.length_map] at h1'
            exact h1'
          have hiF : i < F + 1 := by omega
          have hgetd : cs[i] = cs.getD i 0 := by
            rw [List.getD_eq_getElem?_getD, List.getElem?_eq_getElem
              (by omega : i < cs.length)]
            rfl
          have hb := hbound i (by omega)
          rw [List.getElem_map, List.getElem_map, List.getElem_range]
          by_cases hlt : i < F
          · rw [if_pos hlt]
            rw [hgetd]
            exact ihkids i hlt g (by omega)
          · have hieq : i = F := by omega
            subst hieq
            rw [if_neg hlt]
            rw [hgetd]
            exact ihlast g (by omega)
      rw [hmapeq]
      have hsplit : List.range (F + 1) = List.range F ++ [F] := by
        simp [List.range_succ]
      rw [hsplit, List.map_append, List.flatten_append]
      have h1 : ((List.range F).map (fun x =>
          if x < F
          then (all.drop (start + count * x / (F + 1))).take
              (count * (x + 1) / (F + 1) - count * x / (F + 1))
          else (all.drop (start + count * F / (F + 1))).take
              (count - count * F / (F + 1)))).flatten
          = (all.drop start).take (count * F / (F + 1)) := by
        have hmc : (List.range F).map (fun x =>
            if x < F
            then (all.drop (start + count * x / (F + 1))).take
                (count * (x + 1) / (F + 1) - count * x / (F + 1))
            else (all.drop (start + count * F / (F + 1))).take
                (count - count * F / (F + 1)))
            = (List.range F).map (fun x =>
                (all.drop (start + count * x / (F + 1))).take
                  (count * (x + 1) / (F + 1) - count * x / (F + 1))) :=
          List.map_congr_left (fun x hx => by
            rw [if_pos (List.mem_range.mp hx)])
        rw [hmc, ← List.flatMap_def, flatMap_slices]
      rw [h1]
      simp only [List.map_cons, List.map_nil, List.flatten_cons,
        List.flatten_nil, List.append_nil, lt_irrefl, if_neg (lt_irrefl F)]
      have hprevle : count * F / (F + 1) ≤ count := by
        calc count * F / (F + 1) ≤ count * (F + 1) / (F + 1) :=
              Nat.div_le_div_right (Nat.mul_le_mul_left count (by omega))
          _ = count := Nat.mul_div_cancel count (by omega)
      have hsum : count * F / (F + 1) + (count - count * F / (F + 1)) = count := by
        omega
      have htadd := (List.take_add (all.drop start) (count * F / (F + 1))
        (count - count * F / (F + 1))).symm
      rw [hsum] at htadd
      have hdd : ((all.drop start).drop (count * F / (F + 1))).take
            (count - count * F / (F + 1))
          = (all.drop (start + count * F / (F + 1))).take
            (count - count * F / (F + 1)) := by
        rw [List.drop_drop]
      rw [← hdd]
      exact htadd

/-- C4: the builder emits a leaf exactly when `indexSize ≤ F` (the
node written at the returned offset is a leaf holding the whole
slice); otherwise it emits an internal node with `F + 1` children
whose subtrees cover, in order, the slices ending at
`curEntry_x = indexSize * (x + 1) / (F + 1)` for `x < F`, the
rightmost child covering the remaining
`indexSize - curEntry_{F-1}` items. -/
theorem buildNode_slicing (F : Nat) (all : List Entry)
    (fuel count start : Nat) (file : List FNode) (lll : Nat)
    (hF : 1 ≤ F) (hfuel : count ≤ fuel) :
    (count ≤ F → ∃ nx,
      getNode (buildNode F all fuel start count file lll).1
          (buildNode F all fuel start count file lll).2.1
        = FNode.leaf ((all.drop start).take count) nx)
    ∧ (F < count → ∃ cs pivs,
      getNode (buildNode F all fuel start count file lll).1
          (buildNode F all fuel start count file lll).2.1
        = FNode.node cs pivs
      ∧ cs.length = F + 1
      ∧ (∀ x, x < F →
          subtreeItems (buildNode F all fuel start count file lll).1
              (buildNode F all fuel start count file lll).2.1 (cs.getD x 0)
            = (all.drop (start + count * x / (F + 1))).take
                (count * (x + 1) / (F + 1) - count * x / (F + 1)))
      ∧ subtreeItems (buildNode F all fuel start count file lll).1
            (buildNode F all fuel start count file lll).2.1 (cs.getD F 0)
          = (all.drop (start + count * F / (F + 1))).take
              (count - count * F / (F + 1))) := by
  have hout := buildNode_out F hF all fuel count start file lll (Or.inr hfuel)
  set r := buildNode F all fuel start count file lll with hr
  constructor
  · intro hcnt
    cases hout.shape with
    | leaf o s c nx hc hget => exact ⟨nx, hget⟩
    | node o s c cs pivs hc hget hlen hpiv hbound hkids hlast => omega
  · intro hcnt
    cases hout.shape with
    | leaf o s c nx hc hget => omega
    | node o s c cs pivs hc hget hlen hpiv hbound hkids hlast =>
      refine ⟨cs, pivs, hget, hlen, ?_, ?_⟩
      · intro x hx
        exact subtreeOK_items (hkids x hx) r.2.1 (hbound x (by omega)).2
      · exact subtreeOK_items hlast r.2.1 (hbound F (by omega)).2

theorem buildNode_slicing_witness :
    (1 ≤ 1 ∧ (2 : Nat) ≤ 2) ∧
    ((2 : Nat) ≤ 1 → ∃ nx,
      getNode (buildNode 1 [([1], []), ([2], [])] 2 0 2 [] 0).1
          (buildNode 1 [([1], []), ([2], [])] 2 0 2 [] 0).2.1
        = FNode.leaf ((([([1], []), ([2], [])] : List Entry).drop 0).take 2) nx) := by
  refine ⟨⟨by norm_num, by norm_num⟩, ?_⟩
  exact (buildNode_slicing 1 [([1], []), ([2], [])] 2 2 0 [] 0
    (by norm_num) (by norm_num)).1

theorem walkLeaves_chain {file : List FNode} :
    ∀ {la : List Nat}, ChainedFrom file la →
      (∀ a ∈ la, a ∈ leafAddrs file) →
      ∀ fuel, la.length < fuel →
        walkLeaves file fuel (la.headD 0) = (la.map (leafItems file), true) := by
  intro la
  induction la with
  | nil =>
    intro _ _ fuel hfuel
    cases fuel with
    | zero => omega
    | succ g => simp [walkLeaves]
  | cons a la' ih =>
    intro hch hmem fuel hfuel
    cases fuel with
    | zero => omega
    | succ g =>
      have hamem := hmem a (List.mem_cons_self _ _)
      rcases mem_leafAddrs.mp hamem with ⟨ha1, halt, its, nx, hleaf⟩
      have hane : a ≠ 0 := by omega
      have hgn : getNode file a = FNode.leaf its nx := by
        unfold getNode
        exact hleaf
      have hnx : nx = la'.headD 0 := by
        cases la' with
        | nil =>
          have : leafNext file a = 0 := hch
          unfold leafNext at this
          rw [hgn] at this
          simpa using this
        | cons b rest =>
          have : leafNext file a = b := hch.1
          unfold leafNext at this
          rw [hgn] at this
          simpa using this
      have hch' : ChainedFrom file la' := by
        cases la' with
        | nil => trivial
        | cons b rest => exact hch.2
      have hih := ih hch' (fun x hx => hmem x (List.mem_cons_of_mem _ hx)) g
        (by simpa using Nat.lt_of_succ_lt_succ hfuel)
      show walkLeaves file (g + 1) a = _
      unfold walkLeaves
      rw [if_neg hane, hgn]
      rw [← hnx] at hih
      show (its :: (walkLeaves file g nx).1, (walkLeaves file g nx).2) = _
      rw [hih]
      have hia : leafItems file a = its := by
        unfold leafItems
        rw [hgn]
      simp [hia]

/-- C5: for an index built from a sorted map, starting at the
leftmost leaf (address 1, the first node the builder emits) and
following the leaves' forward links visits every entry of the sorted
(post-skip) key sequence exactly once, in order, and the walk
terminates cleanly on a forward link of 0 at the last leaf. -/
theorem buildIndex_leaf_linkage (m : IndexedWords) (_hs : SortedKeys m) :
    (walkLeaves (buildIndex m).file ((buildIndex m).file.length + 1) 1).2 = true
    ∧ ((walkLeaves (buildIndex m).file ((buildIndex m).file.length + 1) 1).1).flatten
        = m.dropWhile (fun e => e.1.isEmpty) := by
  have hF : 1 ≤ chooseFanout (m.dropWhile (fun e => e.1.isEmpty)).length := by
    unfold chooseFanout
    omega
  set entries := m.dropWhile (fun e => e.1.isEmpty) with hentries
  set F := chooseFanout entries.length with hFdef
  have hout := buildNode_out F hF entries entries.length entries.length 0 [] 0
    (Or.inr (le_refl _))
  set r := buildNode F entries entries.length 0 entries.length [] 0 with hrdef
  have hfile : (buildIndex m).file = r.1 := rfl
  have hinv0 : LinkInv [] 0 := by
    constructor
    · show ChainedFrom [] (leafAddrs [])
      have : leafAddrs ([] : List FNode) = [] := rfl
      rw [this]
      trivial
    · rfl
  have hinv := hout.link hinv0
  rcases hout.leaves with ⟨newA, hnewA, hne, hhd, hitems⟩
  have hla : leafAddrs r.1 = newA := by
    have : leafAddrs ([] : List FNode) = [] := rfl
    rw [hnewA, this]
    rfl
  have hch : ChainedFrom r.1 (leafAddrs r.1) := hinv.1
  have hmem : ∀ a ∈ leafAddrs r.1, a ∈ leafAddrs r.1 := fun a ha => ha
  have hlen : (leafAddrs r.1).length < r.1.length + 1 := by
    have : (leafAddrs r.1).length ≤ (List.range r.1.length).length :=
      List.length_filterMap_le _ _
    simpa using Nat.lt_succ_of_le (by simpa using this)
  have hwalk := walkLeaves_chain hch hmem (r.1.length + 1) hlen
  have hhead : (leafAddrs r.1).headD 0 = 1 := by
    rw [hla]
    cases hc : newA with
    | nil => exact absurd hc hne
    | cons a rest =>
      rw [hc] at hhd
      simpa using hhd
  rw [hhead] at hwalk
  rw [hfile, hwalk]
  constructor
  · rfl
  · show ((leafAddrs r.1).map (leafItems r.1)).flatten = entries
    rw [hla]
    rw [hitems]
    simp

theorem buildIndex_leaf_linkage_witness :
    (walkLeaves (buildIndex [([5], [⟨[5], [], 2⟩])]).file
        ((buildIndex [([5], [⟨[5], [], 2⟩])]).file.length + 1) 1).2 = true :=
  (buildIndex_leaf_linkage [([5], [⟨[5], [], 2⟩])] (by simp [SortedKeys])).1

/-! ### Sorted-key index arithmetic and search-tree glue -/

/-- Keys of the entry list strictly increasing (the `std::map` order
the builder consumes). -/
def KeysSorted (l : List Entry) : Prop :=
  List.Pairwise (fun a b : Entry => sLt a.1 b.1) l

/-- Well-formedness of chains as stored in leaves: every chain is
non-empty and folding its first record's word re-derives the folded
key (the invariant the leaf search relies on, btreeidx.cc:590-606). -/
def WFChains (fold : Str → Str) (all : List Entry) : Prop :=
  ∀ e ∈ all, e.2 ≠ [] ∧ fold ((e.2.headD default).word) = e.1

theorem getD_eq_getElem' {α : Type} (l : List α) (i : Nat) (d : α)
    (h : i < l.length) : l.getD i d = l[i] := by
  rw [List.getD_eq_getElem?_getD, List.getElem?_eq_getElem h]
  rfl

theorem sorted_lt_of_index {all : List Entry} (h : KeysSorted all)
    {i j : Nat} (hij : i < j) (hj : j < all.length) :
    sLt (all.getD i ([], [])).1 (all.getD j ([], [])).1 := by
  have hi : i < all.length := by omega
  rw [getD_eq_getElem' _ _ _ hi, getD_eq_getElem' _ _ _ hj]
  have := List.pairwise_iff_get.mp h ⟨i, hi⟩ ⟨j, hj⟩ hij
  simpa [List.get_eq_getElem] using this

theorem sorted_scompare_ne_gt_iff {all : List Entry} (h : KeysSorted all)
    {i t : Nat} (hi : i < all.length) (ht : t < all.length) :
    (scompare (all.getD i ([], [])).1 (all.getD t ([], [])).1 ≠ Ordering.gt
      ↔ i ≤ t) := by
  constructor
  · intro hne
    by_contra hgt
    have hlt := sorted_lt_of_index h (by omega : t < i) hi
    exact hne (scompare_gt_iff.mpr hlt)
  · intro hle
    rcases Nat.lt_or_ge i t with hlt | hge
    · have := sorted_lt_of_index h hlt ht
      rw [this]
      simp
    · have hieq : i = t := by omega
      subst hieq
      rw [scompare_self]
      simp

theorem getD_slice (all : List Entry) (start count i : Nat)
    (hi : i < count) (hrange : start + count ≤ all.length) :
    ((all.drop start).take count).getD i ([], [])
      = all.getD (start + i) ([], []) := by
  have h1 : i < ((all.drop start).take count).length := by
    simp
    omega
  have h2 : start + i < all.length := by omega
  rw [getD_eq_getElem' _ _ _ h1, getD_eq_getElem' _ _ _ h2]
  rw [List.getElem_take, List.getElem_drop]

theorem headD_map_drop {α β : Type} [Inhabited α] (l : List α) (f : α → β)
    (i : Nat) (d : β) (hi : i < l.length) :
    ((l.drop i).map f).headD d = f (l.getD i default) := by
  rw [getD_eq_getElem' _ _ _ hi]
  rw [List.drop_eq_getElem_cons hi]
  simp only [List.map_cons, List.headD_cons]

theorem getD_map_range {β : Type} (f : Nat → β) (F x : Nat) (d : β)
    (hx : x < F) : ((List.range F).map f).getD x d = f x := by
  have h1 : x < ((List.range F).map f).length := by simpa using hx
  rw [getD_eq_getElem' _ _ _ h1]
  rw [List.getElem_map, List.getElem_range]

theorem cur_strict_mono (count F x : Nat) (hc : F + 1 ≤ count) :
    count * x / (F + 1) + 1 ≤ count * (x + 1) / (F + 1) := by
  have h1 : count * x + (F + 1) ≤ count * (x + 1) := by
    have : count * (x + 1) = count * x + count := by ring
    omega
  calc count * x / (F + 1) + 1 = (count * x + (F + 1)) / (F + 1) := by
        rw [Nat.add_div_right _ (by omega)]
    _ ≤ count * (x + 1) / (F + 1) := Nat.div_le_div_right h1

theorem cur_le_count (count F x : Nat) (hx : x ≤ F) :
    count * (x + 1) / (F + 1) ≤ count := by
  calc count * (x + 1) / (F + 1) ≤ count * (F + 1) / (F + 1) :=
        Nat.div_le_div_right (Nat.mul_le_mul_left count (by omega))
    _ = count := Nat.mul_div_cancel count (by omega)

theorem chainedFrom_next_mem {file : List FNode} :
    ∀ {la : List Nat}, ChainedFrom file la →
      ∀ a ∈ la, leafNext file a = 0 ∨ leafNext file a ∈ la := by
  intro la
  induction la with
  | nil => intro _ a ha; cases ha
  | cons b rest ih =>
    intro hch a ha
    cases rest with
    | nil =>
      rcases List.mem_singleton.mp ha with rfl
      exact Or.inl hch
    | cons c rest' =>
      rcases List.mem_cons.mp ha with rfl | hmem
      · right
        rw [hch.1]
        exact List.mem_cons_of_mem _ (List.mem_cons_self _ _)
      · rcases ih hch.2 a hmem with h0 | hmem'
        · exact Or.inl h0
        · exact Or.inr (List.mem_cons_of_mem _ hmem')

/-- `countP` of a downward-closed predicate over `range F` is a
boundary: indices below it satisfy the predicate, the rest do not. -/
theorem countP_boundary (p : Nat → Bool) :
    ∀ F : Nat, (∀ x y, x ≤ y → y < F → p y = true → p x = true) →
      ∀ x, x < F → (x < (List.range F).countP p ↔ p x = true) := by
  intro F
  induction F with
  | zero => intro _ x hx; omega
  | succ F ih =>
    intro hdc x hx
    have hdc' : ∀ x y, x ≤ y → y < F → p y = true → p x = true :=
      fun a b hab hb hpb => hdc a b hab (by omega) hpb
    have hsplit : List.range (F + 1) = List.range F ++ [F] := by
      simp [List.range_succ]
    have hcount : (List.range (F + 1)).countP p
        = (List.range F).countP p + (if p F = true then 1 else 0) := by
      rw [hsplit, List.countP_append]
      cases hpF : p F <;> simp [List.countP_cons, hpF]
    have hble : (List.range F).countP p ≤ F := by
      calc (List.range F).countP p ≤ (List.range F).length := List.countP_le_length _
        _ = F := by simp
    by_cases hxF : x < F
    · have hi := ih hdc' x hxF
      rw [hcount]
      cases hpF : p F with
      | true =>
        have hall : ∀ y, y < F → p y = true := fun y hy =>
          hdc y F (by omega) (by omega) hpF
        have hcf : (List.range F).countP p = F := by
          by_contra hne
          have hlt : (List.range F).countP p < F := by omega
          have := (ih hdc' _ hlt).mpr (hall _ hlt)
          omega
        rw [hcf, if_pos rfl]
        constructor
        · intro _; exact hall x hxF
        · intro _; omega
      | false =>
        rw [if_neg (by simp : ¬ (false = true))]
        simpa using hi
    · have hxeq : x = F := by omega
      rw [hcount, hxeq]
      cases hpF : p F with
      | true =>
        have hall : ∀ y, y < F → p y = true := fun y hy =>
          hdc y F (by omega) (by omega) hpF
        have hcf : (List.range F).countP p = F := by
          by_contra hne
          have hlt : (List.range F).countP p < F := by omega
          have := (ih hdc' _ hlt).mpr (hall _ hlt)
          omega
        rw [hcf, if_pos rfl]
        constructor
        · intro _; rfl
        · intro _; omega
      | false =>
        rw [if_neg (by simp : ¬ (false = true))]
        constructor
        · intro h; omega
        · intro h; cases h

/-! ### Binary search correctness -/

/-- The pivot binary search lands on the boundary child index `j`
(all pivots before `j` compare at most `target`, all from `j` on
compare greater), provided the pivots are strictly sorted. -/
theorem pivotSearchGo_boundary (target : Str) (pivots : List Str) (j : Nat)
    (hsorted : ∀ x y, x < y → y < pivots.length →
      sLt (pivots.getD x []) (pivots.getD y []))
    (hchar : ∀ x, x < pivots.length →
      (x < j ↔ scompare (pivots.getD x []) target ≠ Ordering.gt)) :
    ∀ fuel lo size, size ≤ fuel → 1 ≤ size → lo + size ≤ pivots.length →
      lo ≤ j → j ≤ lo + size →
      pivotSearchGo target pivots fuel lo size = j := by
  intro fuel
  induction fuel with
  | zero => intro lo size h1 h2 _ _ _; omega
  | succ f ih =>
    intro lo size hfuel hsz hrange hloj hjhi
    have hidx : lo + size / 2 < pivots.length := by omega
    rw [show pivotSearchGo target pivots (f + 1) lo size
        = (match scompare target (pivots.getD (lo + size / 2) []) with
          | Ordering.eq => lo + size / 2 + 1
          | Ordering.lt =>
            if size / 2 = 0 then lo + size / 2
            else pivotSearchGo target pivots f lo (size / 2)
          | Ordering.gt =>
            if size - size / 2 - 1 = 0 then lo + size / 2 + 1
            else pivotSearchGo target pivots f (lo + size / 2 + 1)
              (size - size / 2 - 1)) from rfl]
    cases hcmp : scompare target (pivots.getD (lo + size / 2) []) with
    | eq =>
      show lo + size / 2 + 1 = j
      have heq : target = pivots.getD (lo + size / 2) [] :=
        (scompare_eq_iff _ _).mp hcmp
      have hin : lo + size / 2 < j := by
        rcases (hchar _ hidx) with ⟨_, h2⟩
        have hne : scompare (pivots.getD (lo + size / 2) []) target ≠ Ordering.gt := by
          rw [← heq, scompare_self]
          simp
        exact h2 hne
      have hout : j ≤ lo + size / 2 + 1 := by
        by_contra habs
        have hnext : lo + size / 2 + 1 < pivots.length := by
          by_contra hge
          omega
        have hmem := (hchar _ hnext).mp (by omega)
        have hlt : sLt (pivots.getD (lo + size / 2) [])
            (pivots.getD (lo + size / 2 + 1) []) :=
          hsorted _ _ (by omega) hnext
        rw [← heq] at hlt
        exact hmem (scompare_gt_iff.mpr hlt)
      omega
    | lt =>
      show (if size / 2 = 0 then lo + size / 2
        else pivotSearchGo target pivots f lo (size / 2)) = j
      have hgt : scompare (pivots.getD (lo + size / 2) []) target = Ordering.gt := by
        rw [scompare_swap, hcmp]
        rfl
      have hjle : j ≤ lo + size / 2 := by
        by_contra habs
        exact ((hchar _ hidx).mp (by omega)) hgt
      by_cases hz : size / 2 = 0
      · rw [if_pos hz]
        omega
      · rw [if_neg hz]
        exact ih lo (size / 2) (by omega) (by omega) (by omega) hloj (by omega)
    | gt =>
      show (if size - size / 2 - 1 = 0 then lo + size / 2 + 1
        else pivotSearchGo target pivots f (lo + size / 2 + 1)
          (size - size / 2 - 1)) = j
      have hlt : scompare (pivots.getD (lo + size / 2) []) target = Ordering.lt := by
        rw [scompare_swap, hcmp]
        rfl
      have hjgt : lo + size / 2 < j := by
        rcases hchar _ hidx with ⟨_, h2⟩
        exact h2 (by rw [hlt]; simp)
      by_cases hz : size - size / 2 - 1 = 0
      · rw [if_pos hz]
        omega
      · rw [if_neg hz]
        exact ih (lo + size / 2 + 1) (size - size / 2 - 1) (by omega) (by omega)
          (by omega) (by omega) (by omega)

/-- The pivot search never returns a child index beyond
`pivots.length` (there are `F + 1` children for `F` pivots). -/
theorem pivotSearchGo_le (target : Str) (pivots : List Str) :
    ∀ fuel lo size, 1 ≤ size → lo + size ≤ pivots.length →
      pivotSearchGo target pivots fuel lo size ≤ pivots.length := by
  intro fuel
  induction fuel with
  | zero => intro lo size h1 h2; show lo ≤ _; omega
  | succ f ih =>
    intro lo size hsz hrange
    rw [show pivotSearchGo target pivots (f + 1) lo size
        = (match scompare target (pivots.getD (lo + size / 2) []) with
          | Ordering.eq => lo + size / 2 + 1
          | Ordering.lt =>
            if size / 2 = 0 then lo + size / 2
            else pivotSearchGo target pivots f lo (size / 2)
          | Ordering.gt =>
            if size - size / 2 - 1 = 0 then lo + size / 2 + 1
            else pivotSearchGo target pivots f (lo + size / 2 + 1)
              (size - size / 2 - 1)) from rfl]
    cases scompare target (pivots.getD (lo + size / 2) []) with
    | eq =>
      show lo + size / 2 + 1 ≤ pivots.length
      omega
    | lt =>
      show (if size / 2 = 0 then lo + size / 2
        else pivotSearchGo target pivots f lo (size / 2)) ≤ pivots.length
      by_cases hz : size / 2 = 0
      · rw [if_pos hz]; omega
      · rw [if_neg hz]; exact ih lo (size / 2) (by omega) (by omega)
    | gt =>
      show (if size - size / 2 - 1 = 0 then lo + size / 2 + 1
        else pivotSearchGo target pivots f (lo + size / 2 + 1)
          (size - size / 2 - 1)) ≤ pivots.length
      by_cases hz : size - size / 2 - 1 = 0
      · rw [if_pos hz]; omega
      · rw [if_neg hz]; exact ih (lo + size / 2 + 1) (size - size / 2 - 1)
          (by omega) (by omega)

/-- Completeness of the leaf chain search: when the target key is the
re-derived key of the chain at position `t` and the leaf's keys are
strictly sorted, the search returns an exact hit at `t`. -/
theorem chainSearchGo_exact_complete (fold : Str → Str) (items : List Entry)
    (target : Str) (t : Nat)
    (hsorted : ∀ i j, i < j → j < items.length →
      sLt (chainKeyAt fold items i) (chainKeyAt fold items j))
    (ht : t < items.length)
    (htarget : scompare target (chainKeyAt fold items t) = Ordering.eq) :
    ∀ fuel lo size, size ≤ fuel → lo ≤ t → t < lo + size →
      lo + size ≤ items.length →
      chainSearchGo fold items target fuel lo size = LeafFind.exactAt t := by
  intro fuel
  induction fuel with
  | zero => intro lo size h1 h2 h3 _; omega
  | succ f ih =>
    intro lo size hfuel hlot hthi hrange
    have hteq : target = chainKeyAt fold items t := (scompare_eq_iff _ _).mp htarget
    have hidx : lo + size / 2 < items.length := by omega
    rw [show chainSearchGo fold items target (f + 1) lo size
        = (match scompare target (chainKeyAt fold items (lo + size / 2)) with
          | Ordering.eq => LeafFind.exactAt (lo + size / 2)
          | Ordering.lt =>
            if size / 2 = 0 then LeafFind.prefixAt (lo + size / 2)
            else chainSearchGo fold items target f lo (size / 2)
          | Ordering.gt =>
            if size - size / 2 - 1 = 0 then
              (if lo + size / 2 = items.length - 1 then LeafFind.advance
               else LeafFind.nextAt (lo + size / 2 + 1))
            else chainSearchGo fold items target f (lo + size / 2 + 1)
              (size - size / 2 - 1)) from rfl]
    cases hcmp : scompare target (chainKeyAt fold items (lo + size / 2)) with
    | eq =>
      show LeafFind.exactAt (lo + size / 2) = LeafFind.exactAt t
      have heq2 : target = chainKeyAt fold items (lo + size / 2) :=
        (scompare_eq_iff _ _).mp hcmp
      have hieq : lo + size / 2 = t := by
        by_contra hne
        rcases Nat.lt_or_ge (lo + size / 2) t with hlt | hge
        · have hs := hsorted _ _ hlt ht
          rw [← heq2, ← hteq] at hs
          exact sLt_irrefl _ hs
        · have hgt2 : t < lo + size / 2 := by omega
          have hs := hsorted _ _ hgt2 hidx
          rw [← heq2, ← hteq] at hs
          exact sLt_irrefl _ hs
      rw [hieq]
    | lt =>
      show (if size / 2 = 0 then LeafFind.prefixAt (lo + size / 2)
        else chainSearchGo fold items target f lo (size / 2)) = LeafFind.exactAt t
      have htlt : t < lo + size / 2 := by
        by_contra hge
        rcases Nat.lt_or_ge (lo + size / 2) t with hlt2 | hge2
        · have hs := hsorted _ _ hlt2 ht
          rw [← hteq] at hs
          have hs' := sLt_asymm hs
          rw [sLt, hcmp] at hs'
          exact hs' rfl
        · have heq3 : lo + size / 2 = t := by omega
          rw [heq3, htarget] at hcmp
          cases hcmp
      have hz : ¬ (size / 2 = 0) := by omega
      rw [if_neg hz]
      exact ih lo (size / 2) (by omega) hlot (by omega) (by omega)
    | gt =>
      show (if size - size / 2 - 1 = 0 then
          (if lo + size / 2 = items.length - 1 then LeafFind.advance
           else LeafFind.nextAt (lo + size / 2 + 1))
        else chainSearchGo fold items target f (lo + size / 2 + 1)
          (size - size / 2 - 1)) = LeafFind.exactAt t
      have htgt : lo + size / 2 < t := by
        by_contra hge
        rcases Nat.lt_or_ge t (lo + size / 2) with hlt2 | hge2
        · have hs := hsorted _ _ hlt2 hidx
          rw [← hteq, sLt] at hs
          rw [hs] at hcmp
          cases hcmp
        · have heq3 : lo + size / 2 = t := by omega
          rw [heq3, htarget] at hcmp
          cases hcmp
      have hz : ¬ (size - size / 2 - 1 = 0) := by omega
      rw [if_neg hz]
      exact ih (lo + size / 2 + 1) (size - size / 2 - 1) (by omega) (by omega)
        (by omega) (by omega)

/-- Soundness of the exact hit: an `exactAt i` answer points inside
the leaf at a chain whose re-derived key equals the target. -/
theorem chainSearchGo_exact_sound (fold : Str → Str) (items : List Entry)
    (target : Str) :
    ∀ fuel lo size i, lo + size ≤ items.length → 1 ≤ size →
      chainSearchGo fold items target fuel lo size = LeafFind.exactAt i →
      i < items.length ∧ scompare target (chainKeyAt fold items i) = Ordering.eq := by
  intro fuel
  induction fuel with
  | zero => intro lo size i _ _ h; cases h
  | succ f ih =>
    intro lo size i hrange hsz h
    rw [show chainSearchGo fold items target (f + 1) lo size
        = (match scompare target (chainKeyAt fold items (lo + size / 2)) with
          | Ordering.eq => LeafFind.exactAt (lo + size / 2)
          | Ordering.lt =>
            if size / 2 = 0 then LeafFind.prefixAt (lo + size / 2)
            else chainSearchGo fold items target f lo (size / 2)
          | Ordering.gt =>
            if size - size / 2 - 1 = 0 then
              (if lo + size / 2 = items.length - 1 then LeafFind.advance
               else LeafFind.nextAt (lo + size / 2 + 1))
            else chainSearchGo fold items target f (lo + size / 2 + 1)
              (size - size / 2 - 1)) from rfl] at h
    cases hcmp : scompare target (chainKeyAt fold items (lo + size / 2)) with
    | eq =>
      rw [hcmp] at h
      have h' : LeafFind.exactAt (lo + size / 2) = LeafFind.exactAt i := h
      cases h'
      exact ⟨by omega, hcmp⟩
    | lt =>
      rw [hcmp] at h
      have h' : (if size / 2 = 0 then LeafFind.prefixAt (lo + size / 2)
        else chainSearchGo fold items target f lo (size / 2))
          = LeafFind.exactAt i := h
      by_cases hz : size / 2 = 0
      · rw [if_pos hz] at h'; cases h'
      · rw [if_neg hz] at h'
        exact ih lo (size / 2) i (by omega) (by omega) h'
    | gt =>
      rw [hcmp] at h
      have h' : (if size - size / 2 - 1 = 0 then
          (if lo + size / 2 = items.length - 1 then LeafFind.advance
           else LeafFind.nextAt (lo + size / 2 + 1))
        else chainSearchGo fold items target f (lo + size / 2 + 1)
          (size - size / 2 - 1)) = LeafFind.exactAt i := h
      by_cases hz : size - size / 2 - 1 = 0
      · rw [if_pos hz] at h'
        by_cases hl : lo + size / 2 = items.length - 1
        · rw [if_pos hl] at h'; cases h'
        · rw [if_neg hl] at h'; cases h'
      · rw [if_neg hz] at h'
        exact ih (lo + size / 2 + 1) (size - size / 2 - 1) i (by omega) (by omega) h'

theorem findFrom_succ (fold : Str → Str) (file : List FNode) (ro : Nat)
    (target : Str) (g addr : Nat) :
    findFrom fold file ro target (g + 1) addr
      = match getNode file addr with
        | FNode.node children pivots =>
          findFrom fold file ro target g (children.getD (pivotSearch target pivots) 0)
        | FNode.leaf items next =>
          if items.length = 0 then
            (if addr ≠ ro then Except.error BErr.corrupted else Except.ok none)
          else
            match chainSearch fold items target with
            | LeafFind.exactAt i => Except.ok (some ⟨(items.drop i).map (fun e => e.2),
                if addr ≠ ro then next else 0, true⟩)
            | LeafFind.prefixAt i => Except.ok (some ⟨(items.drop i).map (fun e => e.2),
                if addr ≠ ro then next else 0, false⟩)
            | LeafFind.nextAt i => Except.ok (some ⟨(items.drop i).map (fun e => e.2),
                if addr ≠ ro then next else 0, false⟩)
            | LeafFind.advance =>
              if (if addr ≠ ro then next else 0) ≠ 0 then
                match getNode file (if addr ≠ ro then next else 0) with
                | FNode.leaf items2 next2 =>
                  Except.ok (some ⟨items2.map (fun e => e.2), next2, false⟩)
                | FNode.node _ _ => Except.error BErr.corrupted
              else Except.ok none := rfl

theorem findFrom_node_val (fold : Str → Str) (file : List FNode) (ro : Nat)
    (target : Str) (g addr : Nat) (cs : List Nat) (ps : List Str)
    (hget : getNode file addr = FNode.node cs ps) :
    findFrom fold file ro target (g + 1) addr
      = findFrom fold file ro target g (cs.getD (pivotSearch target ps) 0) := by
  rw [findFrom_succ, hget]

theorem findFrom_leaf_val (fold : Str → Str) (file : List FNode) (ro : Nat)
    (target : Str) (g addr : Nat) (items : List Entry) (next : Nat)
    (hget : getNode file addr = FNode.leaf items next)
    (hne : ¬ items.length = 0) :
    findFrom fold file ro target (g + 1) addr
      = match chainSearch fold items target with
        | LeafFind.exactAt i => Except.ok (some ⟨(items.drop i).map (fun e => e.2),
            if addr ≠ ro then next else 0, true⟩)
        | LeafFind.prefixAt i => Except.ok (some ⟨(items.drop i).map (fun e => e.2),
            if addr ≠ ro then next else 0, false⟩)
        | LeafFind.nextAt i => Except.ok (some ⟨(items.drop i).map (fun e => e.2),
            if addr ≠ ro then next else 0, false⟩)
        | LeafFind.advance =>
          if (if addr ≠ ro then next else 0) ≠ 0 then
            match getNode file (if addr ≠ ro then next else 0) with
            | FNode.leaf items2 next2 =>
              Except.ok (some ⟨items2.map (fun e => e.2), next2, false⟩)
            | FNode.node _ _ => Except.error BErr.corrupted
          else Except.ok none := by
  rw [findFrom_succ, hget]
  show (if items.length = 0 then
      (if addr ≠ ro then Except.error BErr.corrupted else Except.ok none)
    else
      match chainSearch fold items target with
      | LeafFind.exactAt i => Except.ok (some ⟨(items.drop i).map (fun e => e.2),
          if addr ≠ ro then next else 0, true⟩)
      | LeafFind.prefixAt i => Except.ok (some ⟨(items.drop i).map (fun e => e.2),
          if addr ≠ ro then next else 0, false⟩)
      | LeafFind.nextAt i => Except.ok (some ⟨(items.drop i).map (fun e => e.2),
          if addr ≠ ro then next else 0, false⟩)
      | LeafFind.advance =>
        if (if addr ≠ ro then next else 0) ≠ 0 then
          match getNode file (if addr ≠ ro then next else 0) with
          | FNode.leaf items2 next2 =>
            Except.ok (some ⟨items2.map (fun e => e.2), next2, false⟩)
          | FNode.node _ _ => Except.error BErr.corrupted
        else Except.ok none : Except BErr (Option Hit)) = _
  rw [if_neg hne]

theorem findArticles_eq (fold foldCase : Str → Str) (idx : BuiltIndex) (q : Str) :
    findArticles fold foldCase idx q
      = match findFrom fold idx.file idx.rootOffset (fold q) (idx.file.length + 1)
            idx.rootOffset with
        | Except.error e => Except.error e
        | Except.ok none => Except.ok []
        | Except.ok (some h) =>
          if h.exact then Except.ok (antialias foldCase q (h.chains.headD []))
          else Except.ok [] := rfl

theorem getD_mem (all : List Entry) (i : Nat) (hi : i < all.length) :
    all.getD i ([], []) ∈ all := by
  rw [getD_eq_getElem' _ _ _ hi]
  exact List.getElem_mem _

/-- On a slice of a well-formed entry list, the re-derived leaf key at
position `i` is the stored folded key of the sliced entry. -/
theorem chainKeyAt_slice (fold : Str → Str) (all : List Entry)
    (hwf : WFChains fold all) (start count i : Nat)
    (hi : i < count) (hrange : start + count ≤ all.length) :
    chainKeyAt fold ((all.drop start).take count) i
      = (all.getD (start + i) ([], [])).1 := by
  unfold chainKeyAt
  rw [getD_slice all start count i hi hrange]
  exact (hwf _ (getD_mem all (start + i) (by omega))).2

theorem prevLast_lt (count F : Nat) (hc : 1 ≤ count) :
    count * F / (F + 1) < count := by
  rw [Nat.div_lt_iff_lt_mul (by omega : 0 < F + 1)]
  have hms : count * (F + 1) = count * F + count := Nat.mul_succ count F
  omega

theorem pivotIdx_lt (count F x : Nat) (hx : x < F) (hc : 1 ≤ count) :
    count * (x + 1) / (F + 1) < count := by
  have h1 : count * (x + 1) / (F + 1) ≤ count * F / (F + 1) :=
    Nat.div_le_div_right (Nat.mul_le_mul_left count (by omega))
  have h2 := prevLast_lt count F hc
  omega

/-- Completeness of the descent: on a built subtree covering the
target entry, `findChainOffsetExactOrPrefix` reaches the leaf holding
it and reports an exact match whose first chain is the entry's. -/
theorem findFrom_exact (fold : Str → Str) (F : Nat) (hF : 1 ≤ F)
    (all : List Entry) (hs : KeysSorted all) (hwf : WFChains fold all)
    (file : List FNode) (ro t : Nat) (ht : t < all.length) :
    ∀ {off start count}, SubtreeOK F all file off start count →
      start + count ≤ all.length → start ≤ t → t < start + count →
      ∀ fuel, off < fuel →
        ∃ hit, findFrom fold file ro (all.getD t ([], [])).1 fuel off
            = Except.ok (some hit)
          ∧ hit.exact = true
          ∧ hit.chains.headD [] = (all.getD t ([], [])).2 := by
  intro off start count h
  induction h with
  | leaf off start count next hcnt hget =>
    intro hrange hlo hhi fuel hfuel
    cases fuel with
    | zero => omega
    | succ g =>
      set items := (all.drop start).take count with hitems
      have hlen : items.length = count := by
        rw [hitems, List.length_take, List.length_drop]
        omega
      have hne : ¬ items.length = 0 := by omega
      have hsorted : ∀ i j, i < j → j < items.length →
          sLt (chainKeyAt fold items i) (chainKeyAt fold items j) := by
        intro i j hij hj
        have hki : chainKeyAt fold items i = (all.getD (start + i) ([], [])).1 := by
          rw [hitems]
          exact chainKeyAt_slice fold all hwf start count i (by omega) hrange
        have hkj : chainKeyAt fold items j = (all.getD (start + j) ([], [])).1 := by
          rw [hitems]
          exact chainKeyAt_slice fold all hwf start count j (by omega) hrange
        rw [hki, hkj]
        exact sorted_lt_of_index hs (by omega) (by omega)
      have htarg : scompare ((all.getD t ([], [])).1)
          (chainKeyAt fold items (t - start)) = Ordering.eq := by
        have hk : chainKeyAt fold items (t - start)
            = (all.getD (start + (t - start)) ([], [])).1 := by
          rw [hitems]
          exact chainKeyAt_slice fold all hwf start count (t - start) (by omega) hrange
        have hts : start + (t - start) = t := by omega
        rw [hk, hts]
        exact scompare_self _
      have hsearch : chainSearch fold items ((all.getD t ([], [])).1)
          = LeafFind.exactAt (t - start) :=
        chainSearchGo_exact_complete fold items _ (t - start) hsorted
          (by omega) htarg (items.length + 1) 0 items.length (by omega) (by omega)
          (by omega) (by omega)
      refine ⟨⟨(items.drop (t - start)).map (fun e => e.2),
        if off ≠ ro then next else 0, true⟩, ?_, rfl, ?_⟩
      · rw [findFrom_leaf_val fold file ro _ g off items next hget hne, hsearch]
      · show ((items.drop (t - start)).map (fun e => e.2)).headD []
          = (all.getD t ([], [])).2
        rw [headD_map_drop items (fun e => e.2) (t - start) [] (by omega)]
        show (items.getD (t - start) (default : Entry)).2 = (all.getD t ([], [])).2
        have hd : (default : Entry) = (([], []) : Entry) := rfl
        rw [hd, hitems, getD_slice all start count (t - start) (by omega) hrange]
        have hts : start + (t - start) = t := by omega
        rw [hts]
  | node off start count cs pivs hcnt hget hlen hpiv hbound hkids hlast ihkids ihlast =>
    intro hrange hlo hhi fuel hfuel
    cases fuel with
    | zero => omega
    | succ g =>
      have hcpos : 1 ≤ count := by omega
      have hplen : pivs.length = F := by rw [hpiv]; simp
      set p : Nat → Bool := fun x => decide (start + count * (x + 1) / (F + 1) ≤ t)
        with hp
      set j := (List.range F).countP p with hj
      have hjF : j ≤ F := by
        rw [hj]
        calc (List.range F).countP p ≤ (List.range F).length :=
              List.countP_le_length _
          _ = F := by simp
      have hdc : ∀ x y, x ≤ y → y < F → p y = true → p x = true := by
        intro x y hxy hy hpy
        simp only [hp, decide_eq_true_eq] at hpy ⊢
        have hmono : count * (x + 1) / (F + 1) ≤ count * (y + 1) / (F + 1) :=
          Nat.div_le_div_right (Nat.mul_le_mul_left count (by omega))
        omega
      have hchar : ∀ x, x < pivs.length →
          (x < j ↔ scompare (pivs.getD x []) ((all.getD t ([], [])).1)
            ≠ Ordering.gt) := by
        intro x hx
        rw [hplen] at hx
        have hgx : pivs.getD x []
            = (all.getD (start + count * (x + 1) / (F + 1)) ([], [])).1 := by
          rw [hpiv]
          exact getD_map_range _ F x [] hx
        have hpx : start + count * (x + 1) / (F + 1) < all.length := by
          have := pivotIdx_lt count F x hx hcpos
          omega
        rw [hgx, sorted_scompare_ne_gt_iff hs hpx ht, hj,
          countP_boundary p F hdc x hx]
        simp only [hp, decide_eq_true_eq]
      have hsorted : ∀ x y, x < y → y < pivs.length →
          sLt (pivs.getD x []) (pivs.getD y []) := by
        intro x y hxy hy
        rw [hplen] at hy
        have hgx : pivs.getD x []
            = (all.getD (start + count * (x + 1) / (F + 1)) ([], [])).1 := by
          rw [hpiv]
          exact getD_map_range _ F x [] (by omega)
        have hgy : pivs.getD y []
            = (all.getD (start + count * (y + 1) / (F + 1)) ([], [])).1 := by
          rw [hpiv]
          exact getD_map_range _ F y [] hy
        have h1 := cur_strict_mono count F (x + 1) (by omega)
        have h2 : count * (x + 1 + 1) / (F + 1) ≤ count * (y + 1) / (F + 1) :=
          Nat.div_le_div_right (Nat.mul_le_mul_left count (by omega))
        have hpy : start + count * (y + 1) / (F + 1) < all.length := by
          have := pivotIdx_lt count F y hy hcpos
          omega
        rw [hgx, hgy]
        exact sorted_lt_of_index hs (by omega) hpy
      have hpsearch : pivotSearch ((all.getD t ([], [])).1) pivs = j :=
        pivotSearchGo_boundary _ pivs j hsorted hchar (pivs.length + 1) 0
          pivs.length (by omega) (by rw [hplen]; omega) (by omega) (by omega)
          (by rw [hplen]; omega)
      rw [findFrom_node_val fold file ro _ g off cs pivs hget, hpsearch]
      by_cases hjlt : j < F
      · have hmono1 : count * j / (F + 1) ≤ count * (j + 1) / (F + 1) :=
          Nat.div_le_div_right (Nat.mul_le_mul_left count (by omega))
        have hcur1 := cur_strict_mono count F j (by omega)
        have hup := cur_le_count count F j (by omega)
        have hlow : start + count * j / (F + 1) ≤ t := by
          cases Nat.eq_zero_or_pos j with
          | inl hz =>
            rw [hz]
            simpa using hlo
          | inr hpos =>
            have hcb := countP_boundary p F hdc (j - 1) (by omega)
            rw [← hj] at hcb
            have hpj := hcb.mp (by omega)
            simp only [hp, decide_eq_true_eq] at hpj
            have hjj : j - 1 + 1 = j := by omega
            rw [hjj] at hpj
            exact hpj
        have hupper : t < start + count * (j + 1) / (F + 1) := by
          have hcb := countP_boundary p F hdc j hjlt
          rw [← hj] at hcb
          have hnp : ¬ p j = true := by
            intro hpj
            have := hcb.mpr hpj
            omega
          simp only [hp, decide_eq_true_eq] at hnp
          omega
        have hb := hbound j (by omega)
        exact ihkids j hjlt (by omega) hlow (by omega) g (by omega)
      · have hjeq : j = F := by omega
        rw [hjeq]
        have hprev := prevLast_lt count F hcpos
        have hlow : start + count * F / (F + 1) ≤ t := by
          have hcb := countP_boundary p F hdc (F - 1) (by omega)
          rw [← hj] at hcb
          have hpf := hcb.mp (by omega)
          simp only [hp, decide_eq_true_eq] at hpf
          have hff : F - 1 + 1 = F := by omega
          rw [hff] at hpf
          exact hpf
        have hb := hbound F (by omega)
        exact ihlast (by omega) hlow (by omega) g (by omega)

/-- Soundness of the exact flag: whenever the descent reports an
exact match, the subtree's slice holds an entry whose folded key is
the target and the first returned chain is that entry's chain. -/
theorem findFrom_sound (fold : Str → Str) (F : Nat) (hF : 1 ≤ F)
    (all : List Entry) (hwf : WFChains fold all)
    (file : List FNode) (ro : Nat) (target : Str) :
    ∀ {off start count}, SubtreeOK F all file off start count →
      start + count ≤ all.length → 1 ≤ count →
      ∀ fuel hit, findFrom fold file ro target fuel off = Except.ok (some hit) →
        hit.exact = true →
        ∃ u, start ≤ u ∧ u < start + count
          ∧ (all.getD u ([], [])).1 = target
          ∧ hit.chains.headD [] = (all.getD u ([], [])).2 := by
  intro off start count h
  induction h with
  | leaf off start count next hcnt hget =>
    intro hrange hcpos fuel hit hfind hexact
    cases fuel with
    | zero => exact Except.noConfusion hfind
    | succ g =>
      set items := (all.drop start).take count with hitems
      have hlen : items.length = count := by
        rw [hitems, List.length_take, List.length_drop]
        omega
      have hne : ¬ items.length = 0 := by omega
      rw [findFrom_leaf_val fold file ro target g off items next hget hne] at hfind
      cases hcs : chainSearch fold items target with
      | exactAt i =>
        rw [hcs] at hfind
        have hfind2 : Except.ok (some (⟨(items.drop i).map (fun e => e.2),
            if off ≠ ro then next else 0, true⟩ : Hit)) = Except.ok (some hit) := hfind
        injection hfind2 with h1
        injection h1 with h2
        rcases chainSearchGo_exact_sound fold items target (items.length + 1)
          0 items.length i (by omega) (by omega) hcs with ⟨hi, hkey⟩
        refine ⟨start + i, by omega, by omega, ?_, ?_⟩
        · have hteq := (scompare_eq_iff _ _).mp hkey
          have hk : chainKeyAt fold items i = (all.getD (start + i) ([], [])).1 := by
            rw [hitems]
            exact chainKeyAt_slice fold all hwf start count i (by omega) hrange
          rw [hk] at hteq
          exact hteq.symm
        · rw [← h2]
          show ((items.drop i).map (fun e => e.2)).headD []
            = (all.getD (start + i) ([], [])).2
          rw [headD_map_drop items (fun e => e.2) i [] (by omega)]
          show (items.getD i (default : Entry)).2 = (all.getD (start + i) ([], [])).2
          have hd : (default : Entry) = (([], []) : Entry) := rfl
          rw [hd, hitems, getD_slice all start count i (by omega) hrange]
      | prefixAt i =>
        rw [hcs] at hfind
        have hfind2 : Except.ok (some (⟨(items.drop i).map (fun e => e.2),
            if off ≠ ro then next else 0, false⟩ : Hit)) = Except.ok (some hit) := hfind
        injection hfind2 with h1
        injection h1 with h2
        rw [← h2] at hexact
        simp at hexact
      | nextAt i =>
        rw [hcs] at hfind
        have hfind2 : Except.ok (some (⟨(items.drop i).map (fun e => e.2),
            if off ≠ ro then next else 0, false⟩ : Hit)) = Except.ok (some hit) := hfind
        injection hfind2 with h1
        injection h1 with h2
        rw [← h2] at hexact
        simp at hexact
      | advance =>
        rw [hcs] at hfind
        have hfind2 : (if (if off ≠ ro then next else 0) ≠ 0 then
            match getNode file (if off ≠ ro then next else 0) with
            | FNode.leaf items2 next2 =>
              Except.ok (some (⟨items2.map (fun e => e.2), next2, false⟩ : Hit))
            | FNode.node _ _ => Except.error BErr.corrupted
          else Except.ok none) = Except.ok (some hit) := hfind
        by_cases hnl : (if off ≠ ro then next else 0) ≠ 0
        · rw [if_pos hnl] at hfind2
          cases hg2 : getNode file (if off ≠ ro then next else 0) with
          | leaf its2 nx2 =>
            rw [hg2] at hfind2
            have hfind3 : Except.ok (some (⟨its2.map (fun e => e.2), nx2,
                false⟩ : Hit)) = Except.ok (some hit) := hfind2
            injection hfind3 with h1
            injection h1 with h2
            rw [← h2] at hexact
            simp at hexact
          | node cs2 ps2 =>
            rw [hg2] at hfind2
            have hfind3 : Except.error BErr.corrupted
                = Except.ok (some hit) := hfind2
            exact Except.noConfusion hfind3
        · rw [if_neg hnl] at hfind2
          have hfind3 : Except.ok (none : Option Hit)
              = Except.ok (some hit) := hfind2
          injection hfind3 with h1
          exact Option.noConfusion h1
  | node off start count cs pivs hcnt hget hlen hpiv hbound hkids hlast ihkids ihlast =>
    intro hrange hcpos fuel hit hfind hexact
    cases fuel with
    | zero => exact Except.noConfusion hfind
    | succ g =>
      rw [findFrom_node_val fold file ro target g off cs pivs hget] at hfind
      have hplen : pivs.length = F := by rw [hpiv]; simp
      obtain ⟨j, hj⟩ : ∃ j, pivotSearch target pivs = j := ⟨_, rfl⟩
      rw [hj] at hfind
      have hjF : j ≤ F := by
        rw [← hj]
        have hle := pivotSearchGo_le target pivs (pivs.length + 1) 0 pivs.length
          (by rw [hplen]; omega) (by omega)
        exact le_trans hle (le_of_eq hplen)
      by_cases hjlt : j < F
      · have hmono1 : count * j / (F + 1) ≤ count * (j + 1) / (F + 1) :=
          Nat.div_le_div_right (Nat.mul_le_mul_left count (by omega))
        have hcur1 := cur_strict_mono count F j (by omega)
        have hup := cur_le_count count F j (by omega)
        rcases ihkids j hjlt (by omega) (by omega) g hit hfind hexact with
          ⟨u, hu1, hu2, hu3, hu4⟩
        obtain ⟨X, hX⟩ : ∃ X, count * j / (F + 1) = X := ⟨_, rfl⟩
        obtain ⟨Y, hY⟩ : ∃ Y, count * (j + 1) / (F + 1) = Y := ⟨_, rfl⟩
        rw [hX] at hu1 hu2 hmono1
        rw [hY] at hu2 hmono1 hup
        exact ⟨u, by omega, by omega, hu3, hu4⟩
      · have hjeq : j = F := by omega
        rw [hjeq] at hfind
        have hprev := prevLast_lt count F (by omega)
        rcases ihlast (by omega) (by omega) g hit hfind hexact with
          ⟨u, hu1, hu2, hu3, hu4⟩
        obtain ⟨L, hL⟩ : ∃ L, count * F / (F + 1) = L := ⟨_, rfl⟩
        rw [hL] at hu1 hu2 hprev
        exact ⟨u, by omega, by omega, hu3, hu4⟩

/-- Totality of the descent on a built tree whose leaf links stay
inside the file's leaves: no `CorruptedChainData` and no fuel
exhaustion for any target. -/
theorem findFrom_total (fold : Str → Str) (F : Nat) (hF : 1 ≤ F)
    (all : List Entry) (file : List FNode) (ro : Nat) (target : Str)
    (hnx : ∀ a ∈ leafAddrs file,
      leafNext file a = 0 ∨ leafNext file a ∈ leafAddrs file) :
    ∀ {off start count}, SubtreeOK F all file off start count →
      start + count ≤ all.length → 1 ≤ count → 1 ≤ off →
      ∀ fuel, off < fuel →
        ∃ r, findFrom fold file ro target fuel off = Except.ok r := by
  intro off start count h
  induction h with
  | leaf off start count next hcnt hget =>
    intro hrange hcpos hoff fuel hfuel
    cases fuel with
    | zero => omega
    | succ g =>
      set items := (all.drop start).take count with hitems
      have hlen : items.length = count := by
        rw [hitems, List.length_take, List.length_drop]
        omega
      have hne : ¬ items.length = 0 := by omega
      rw [findFrom_leaf_val fold file ro target g off items next hget hne]
      cases hcs : chainSearch fold items target with
      | exactAt i => exact ⟨_, rfl⟩
      | prefixAt i => exact ⟨_, rfl⟩
      | nextAt i => exact ⟨_, rfl⟩
      | advance =>
        by_cases hro : off ≠ ro
        · rw [if_pos hro]
          by_cases hn0 : next ≠ 0
          · rw [if_pos hn0]
            have hflt : off - 1 < file.length := by
              by_contra hge
              rw [getNode, getD_oor _ _ _ hge] at hget
              cases hget
            have hoffm : off ∈ leafAddrs file :=
              mem_leafAddrs.mpr ⟨hoff, hflt, items, next, hget⟩
            have hlnx : leafNext file off = next := by
              unfold leafNext
              rw [hget]
            have hnext := hnx off hoffm
            rw [hlnx] at hnext
            cases hnext with
            | inl h0 => omega
            | inr hmem2 =>
              rcases mem_leafAddrs.mp hmem2 with ⟨h1, h2, its2, nx2, hleaf2⟩
              have hg2 : getNode file next = FNode.leaf its2 nx2 := hleaf2
              rw [hg2]
              exact ⟨_, rfl⟩
          · rw [if_neg hn0]
            exact ⟨_, rfl⟩
        · rw [if_neg hro]
          rw [if_neg (by omega : ¬ ((0 : Nat) ≠ 0))]
          exact ⟨_, rfl⟩
  | node off start count cs pivs hcnt hget hlen hpiv hbound hkids hlast ihkids ihlast =>
    intro hrange hcpos hoff fuel hfuel
    cases fuel with
    | zero => omega
    | succ g =>
      rw [findFrom_node_val fold file ro target g off cs pivs hget]
      have hplen : pivs.length = F := by rw [hpiv]; simp
      obtain ⟨j, hj⟩ : ∃ j, pivotSearch target pivs = j := ⟨_, rfl⟩
      rw [hj]
      have hjF : j ≤ F := by
        rw [← hj]
        have hle := pivotSearchGo_le target pivs (pivs.length + 1) 0 pivs.length
          (by rw [hplen]; omega) (by omega)
        exact le_trans hle (le_of_eq hplen)
      have hb := hbound j (by omega)
      by_cases hjlt : j < F
      · have hmono1 : count * j / (F + 1) ≤ count * (j + 1) / (F + 1) :=
          Nat.div_le_div_right (Nat.mul_le_mul_left count (by omega))
        have hcur1 := cur_strict_mono count F j (by omega)
        have hup := cur_le_count count F j (by omega)
        exact ihkids j hjlt (by omega) (by omega) (by omega) g (by omega)
      · have hjeq : j = F := by omega
        rw [hjeq]
        have hb2 := hbound F (by omega)
        have hprev := prevLast_lt count F (by omega)
        exact ihlast (by omega) (by omega) (by omega) g (by omega)

/-- `std::map` keys are unique: in a strictly sorted entry list a key
determines its chain. -/
theorem sorted_key_unique {l : List Entry} (h : KeysSorted l) {k : Str}
    {c c' : Chain} (h1 : (k, c) ∈ l) (h2 : (k, c') ∈ l) : c = c' := by
  induction l with
  | nil => cases h1
  | cons e rest ih =>
    have hp := List.pairwise_cons.mp h
    rcases List.mem_cons.mp h1 with he1 | m1
    · rcases List.mem_cons.mp h2 with he2 | m2
      · rw [← he1] at he2
        exact (congrArg Prod.snd he2).symm
      · rw [← he1] at hp
        exact absurd (hp.1 _ m2) (sLt_irrefl k)
    · rcases List.mem_cons.mp h2 with he2 | m2
      · rw [← he2] at hp
        exact absurd (hp.1 _ m1) (sLt_irrefl k)
      · exact ih hp.2 m1 m2

/-- The index written by `buildIndex` is a well-shaped subtree over
the post-skip entries, rooted at the last written node, and its
leaves' forward links stay among the file's leaves. -/
theorem buildIndex_shape (m : IndexedWords) :
    SubtreeOK (chooseFanout (m.dropWhile (fun e => e.1.isEmpty)).length)
      (m.dropWhile (fun e => e.1.isEmpty))
      (buildIndex m).file (buildIndex m).rootOffset 0
      (m.dropWhile (fun e => e.1.isEmpty)).length
    ∧ (buildIndex m).rootOffset = (buildIndex m).file.length
    ∧ 1 ≤ (buildIndex m).file.length
    ∧ (∀ a ∈ leafAddrs (buildIndex m).file,
        leafNext (buildIndex m).file a = 0
          ∨ leafNext (buildIndex m).file a ∈ leafAddrs (buildIndex m).file) := by
  have hF : 1 ≤ chooseFanout (m.dropWhile (fun e => e.1.isEmpty)).length := by
    unfold chooseFanout
    omega
  set entries := m.dropWhile (fun e => e.1.isEmpty) with hent
  set F := chooseFanout entries.length with hFd
  have hout := buildNode_out F hF entries entries.length entries.length 0 [] 0
    (Or.inr (le_refl _))
  set r := buildNode F entries entries.length 0 entries.length [] 0 with hrd
  have hfile : (buildIndex m).file = r.1 := rfl
  have hroot : (buildIndex m).rootOffset = r.2.1 := rfl
  have hinv0 : LinkInv [] 0 := by
    constructor
    · show ChainedFrom [] (leafAddrs [])
      have he : leafAddrs ([] : List FNode) = [] := rfl
      rw [he]
      trivial
    · rfl
  have hinv := hout.link hinv0
  refine ⟨?_, ?_, ?_, ?_⟩
  · rw [hfile, hroot]
    exact hout.shape
  · rw [hfile, hroot]
    exact hout.offEq
  · rw [hfile]
    have hg : (([] : List FNode)).length < r.1.length := hout.grow
    simp at hg
    omega
  · rw [hfile]
    exact chainedFrom_next_mem hinv.1

/-- C1: round-trip.  If the link `⟨w, empty-prefix, o⟩` that
`addSingleWord(w, o)` creates is present, under the folded key
`fold w`, among the entries `buildIndex` writes (the map minus the
skipped leading empty-key run), then `findArticles(w)` on the built
index succeeds and its result contains the `WordArticleLink` with
word `w` and article offset `o`. -/
theorem findArticles_roundtrip (fold foldCase : Str → Str) (m : IndexedWords)
    (w : Str) (o : Nat) (c : Chain)
    (hs : SortedKeys m)
    (hwf : WFChains fold (m.dropWhile (fun e => e.1.isEmpty)))
    (hmem : (fold w, c) ∈ m.dropWhile (fun e => e.1.isEmpty))
    (hlink : (⟨w, [], o⟩ : WordArticleLink) ∈ c) :
    ∃ res, findArticles fold foldCase (buildIndex m) w = Except.ok res
      ∧ (⟨w, [], o⟩ : WordArticleLink) ∈ res := by
  rcases buildIndex_shape m with ⟨hshape, hoff, hlen1, hnx⟩
  set entries := m.dropWhile (fun e => e.1.isEmpty) with hent
  set F := chooseFanout entries.length with hFd
  have hF : 1 ≤ F := by
    rw [hFd]
    unfold chooseFanout
    omega
  have hKS : KeysSorted entries :=
    List.Pairwise.sublist (List.dropWhile_sublist _) hs
  rcases List.mem_iff_getElem.mp hmem with ⟨t, ht, hgt⟩
  have hgd : entries.getD t ([], []) = (fold w, c) := by
    rw [getD_eq_getElem' _ _ _ ht, hgt]
  rcases findFrom_exact fold F hF entries hKS hwf (buildIndex m).file
      (buildIndex m).rootOffset t (by omega) hshape (by omega) (by omega)
      (by omega) ((buildIndex m).file.length + 1) (by omega) with
    ⟨hit, hfind, hx, hchains⟩
  have htarg : (entries.getD t ([], [])).1 = fold w := by rw [hgd]
  rw [htarg] at hfind
  have hcc : hit.chains.headD [] = c := by
    rw [hchains, hgd]
  refine ⟨antialias foldCase w c, ?_, ?_⟩
  · rw [findArticles_eq, hfind]
    show (if hit.exact then Except.ok (antialias foldCase w (hit.chains.headD []))
      else Except.ok []) = _
    rw [hx, if_pos rfl, hcc]
  · rw [antialias_eq_spec]
    unfold antialiasSpec
    apply List.mem_filterMap.mpr
    refine ⟨⟨w, [], o⟩, hlink, ?_⟩
    simp

theorem findArticles_roundtrip_witness :
    ∃ res, findArticles id id (buildIndex [([1], [⟨[1], [], 5⟩])]) [1]
        = Except.ok res
      ∧ (⟨[1], [], 5⟩ : WordArticleLink) ∈ res :=
  findArticles_roundtrip id id [([1], [⟨[1], [], 5⟩])] [1] 5 [⟨[1], [], 5⟩]
    (by simp [SortedKeys]) (by unfold WFChains; decide) (by decide) (by decide)

/-- C2: exact-match semantics of `findArticles`.  The call always
succeeds; when the written entries hold a chain under the folded key
`fold q` the result is exactly that chain antialiased against the
original query (equivalently, the spec's record-wise description:
records whose simple-case fold of `prefix + word` differs from the
query's are discarded, survivors get the prefix merged into the word
and cleared); when no such chain exists the result is empty, and a
non-empty result implies such a chain exists. -/
theorem findArticles_exact_semantics (fold foldCase : Str → Str)
    (m : IndexedWords) (q : Str) (hs : SortedKeys m)
    (hwf : WFChains fold (m.dropWhile (fun e => e.1.isEmpty))) :
    ∃ res, findArticles fold foldCase (buildIndex m) q = Except.ok res
      ∧ (∀ c, (fold q, c) ∈ m.dropWhile (fun e => e.1.isEmpty) →
          res = antialias foldCase q c ∧ res = antialiasSpec foldCase q c)
      ∧ ((¬ ∃ c, (fold q, c) ∈ m.dropWhile (fun e => e.1.isEmpty)) → res = [])
      ∧ (res ≠ [] → ∃ c, (fold q, c) ∈ m.dropWhile (fun e => e.1.isEmpty)) := by
  by_cases hemp : m.dropWhile (fun e => e.1.isEmpty) = []
  · have hfile : (buildIndex m).file = [FNode.leaf [] 0] := by
      simp [buildIndex, hemp, buildNode, emitLeaf, chooseFanout]
    have hroot : (buildIndex m).rootOffset = 1 := by
      simp [buildIndex, hemp, buildNode, emitLeaf, chooseFanout]
    have hfa : findArticles fold foldCase (buildIndex m) q = Except.ok [] := by
      rw [findArticles_eq, hfile, hroot]
      rfl
    refine ⟨[], hfa, ?_, ?_, ?_⟩
    · intro c hc
      rw [hemp] at hc
      cases hc
    · intro _
      rfl
    · intro hne
      exact absurd rfl hne
  · rcases buildIndex_shape m with ⟨hshape, hoff, hlen1, hnx⟩
    have hF : 1 ≤ chooseFanout (m.dropWhile (fun e => e.1.isEmpty)).length := by
      unfold chooseFanout
      omega
    have hKS : KeysSorted (m.dropWhile (fun e => e.1.isEmpty)) :=
      List.Pairwise.sublist (List.dropWhile_sublist _) hs
    have hlen0 : 0 < (m.dropWhile (fun e => e.1.isEmpty)).length :=
      List.length_pos.mpr hemp
    by_cases hex : ∃ c, (fold q, c) ∈ m.dropWhile (fun e => e.1.isEmpty)
    · rcases hex with ⟨c, hc⟩
      rcases List.mem_iff_getElem.mp hc with ⟨t, ht, hgt⟩
      have hgd : (m.dropWhile (fun e => e.1.isEmpty)).getD t ([], [])
          = (fold q, c) := by
        rw [getD_eq_getElem' _ _ _ ht, hgt]
      rcases findFrom_exact fold _ hF _ hKS hwf (buildIndex m).file
          (buildIndex m).rootOffset t ht hshape (by omega) (by omega)
          (by omega) ((buildIndex m).file.length + 1) (by omega) with
        ⟨hit, hfind, hx, hchains⟩
      have htarg : ((m.dropWhile (fun e => e.1.isEmpty)).getD t ([], [])).1
          = fold q := by
        rw [hgd]
      rw [htarg] at hfind
      have hcc : hit.chains.headD [] = c := by
        rw [hchains, hgd]
      have hfa : findArticles fold foldCase (buildIndex m) q
          = Except.ok (antialias foldCase q c) := by
        rw [findArticles_eq, hfind]
        show (if hit.exact then
            Except.ok (antialias foldCase q (hit.chains.headD []))
          else Except.ok []) = _
        rw [hx, if_pos rfl, hcc]
      refine ⟨antialias foldCase q c, hfa, ?_, ?_, ?_⟩
      · intro c' hc'
        have hceq : c = c' := sorted_key_unique hKS hc hc'
        refine ⟨by rw [hceq], ?_⟩
        rw [← hceq]
        exact antialias_eq_spec foldCase q c
      · intro hnex
        exact absurd ⟨c, hc⟩ hnex
      · intro _
        exact ⟨c, hc⟩
    · rcases findFrom_total fold _ hF _ (buildIndex m).file
          (buildIndex m).rootOffset (fold q) hnx hshape (by omega) (by omega)
          (by omega) ((buildIndex m).file.length + 1) (by omega) with ⟨rr, hrr⟩
      cases rr with
      | none =>
        have hfa : findArticles fold foldCase (buildIndex m) q
            = Except.ok [] := by
          rw [findArticles_eq, hrr]
        refine ⟨[], hfa, ?_, ?_, ?_⟩
        · intro c hc
          exact absurd ⟨c, hc⟩ hex
        · intro _
          rfl
        · intro hne
          exact absurd rfl hne
      | some hit =>
        cases hxv : hit.exact with
        | true =>
          rcases findFrom_sound fold _ hF _ hwf (buildIndex m).file
              (buildIndex m).rootOffset (fold q) hshape (by omega) (by omega)
              ((buildIndex m).file.length + 1) hit hrr hxv with
            ⟨u, hu1, hu2, hu3, hu4⟩
          have hm := getD_mem (m.dropWhile (fun e => e.1.isEmpty)) u (by omega)
          have hpe : (m.dropWhile (fun e => e.1.isEmpty)).getD u ([], [])
              = (fold q,
                ((m.dropWhile (fun e => e.1.isEmpty)).getD u ([], [])).2) := by
            rw [← hu3]
          rw [hpe] at hm
          exact absurd ⟨_, hm⟩ hex
        | false =>
          have hfa : findArticles fold foldCase (buildIndex m) q
              = Except.ok [] := by
            rw [findArticles_eq, hrr]
            show (if hit.exact then
                Except.ok (antialias foldCase q (hit.chains.headD []))
              else Except.ok []) = _
            rw [hxv, if_neg (by simp)]
          refine ⟨[], hfa, ?_, ?_, ?_⟩
          · intro c hc
            exact absurd ⟨c, hc⟩ hex
          · intro _
            rfl
          · intro hne
            exact absurd rfl hne

theorem findArticles_exact_semantics_witness :
    ∃ res, findArticles id id (buildIndex [([1], [⟨[1], [], 5⟩])]) [1]
        = Except.ok res
      ∧ (∀ c, ((id [1] : Str), c) ∈
            ([([1], [⟨[1], [], 5⟩])] : IndexedWords).dropWhile
              (fun e => e.1.isEmpty) →
          res = antialias id [1] c ∧ res = antialiasSpec id [1] c)
      ∧ ((¬ ∃ c, ((id [1] : Str), c) ∈
            ([([1], [⟨[1], [], 5⟩])] : IndexedWords).dropWhile
              (fun e => e.1.isEmpty)) → res = [])
      ∧ (res ≠ [] → ∃ c, ((id [1] : Str), c) ∈
            ([([1], [⟨[1], [], 5⟩])] : IndexedWords).dropWhile
              (fun e => e.1.isEmpty)) :=
  findArticles_exact_semantics id id [([1], [⟨[1], [], 5⟩])] [1]
    (by simp [SortedKeys]) (by unfold WFChains; decide)

end BtreeIndexing
